import Mathlib

/-!
A shallow embedding of the `MemoryManager` word-granularity allocator
(`src/MemoryManager.cpp` / `src/MemoryManager.h`) and a verification of its
specification.

Modelling conventions:
* Machine integers (`unsigned int`, `size_t`, `uint16_t`) are modelled as `Nat`;
  the `uint16_t` truncation performed by `getList` when serializing the hole
  ledger is kept explicitly (`% 65536`).
* Byte addresses handed out by `allocate` and consumed by `free` are modelled
  as byte offsets relative to the arena base (`memoryStart`); the C++ null
  pointer is `Option.none`.
* The `mmap` reservation is modelled by a boolean environment parameter
  `mmapOk` telling whether the system-level reservation succeeds; per POSIX,
  `mmap` with a zero length always fails (`EINVAL`), which the model keeps:
  a zero-byte reservation never succeeds.
* The placement strategy (the stored `std::function`) is passed explicitly to
  `allocate`; `setAllocator` therefore needs no state of its own, and a
  reachability relation that allows a different strategy at every call
  subsumes arbitrary `setAllocator` interleavings.
* File output in `dumpMemoryMap` is modelled by an environment oracle giving
  the outcome of `open`, each `write` call (numbered in call order), and
  `close`; the file content is the concatenation of the successful writes.
-/

/-- An extent: word offset and word length.  Shared shape of the C++ `Hole`
and `Block` records. -/
structure Extent where
  offset : Nat
  length : Nat
deriving DecidableEq, Repr

/-- Value of `MemoryManager::MAX_NUM_WORDS`. -/
def MAX_NUM_WORDS : Nat := 65535

/-- The allocator state: word size fixed at construction, liveness of the
arena (`memoryStart != nullptr`), capacity in words (`memoryLimit / wordSize`),
the hole ledger `holeList` and the allocation ledger `allocatedList`. -/
structure MMState where
  wordSize : Nat
  live : Bool
  capacityWords : Nat
  holeList : List Extent
  allocatedList : List Extent
deriving DecidableEq, Repr

/-- Errors thrown by `MemoryManager::initialize`: `std::invalid_argument`
(InvalidSize) and `std::runtime_error` (OutOfMemory). -/
inductive InitError where
  | invalidSize
  | outOfMemory
deriving DecidableEq, Repr

/-- Ordered insertion used by both ledgers: walk while `itr->offset <
e.offset`, insert before the first entry whose offset is `≥ e.offset`. -/
def insertOrdered (e : Extent) : List Extent → List Extent
  | [] => [e]
  | x :: xs => if x.offset < e.offset then x :: insertOrdered e xs else e :: x :: xs

/-- The scan in `MemoryManager::free`: find the first allocated block whose
offset equals `off`, return its length and the list with it erased; `none`
if no block matches. -/
def removeFirstByOffset (off : Nat) : List Extent → Option (Nat × List Extent)
  | [] => none
  | x :: xs =>
    if x.offset = off then some (x.length, xs)
    else match removeFirstByOffset off xs with
         | none => none
         | some (len, ys) => some (len, x :: ys)

/-- The hole-ledger update scan in `MemoryManager::allocate`: find the first
hole whose offset equals `off`; on an exact fit (`length == req`) erase it,
otherwise advance its offset by `req` and shrink its length by `req`.
Returns `none` when no hole has offset `off` (in which case `allocate`
returns null without touching either ledger). -/
def commitHole (off req : Nat) : List Extent → Option (List Extent)
  | [] => none
  | x :: xs =>
    if x.offset = off then
      some (if x.length = req then xs else ⟨x.offset + req, x.length - req⟩ :: xs)
    else (commitHole off req xs).map (x :: ·)

/-- Model of `MemoryManager::mergeHoles`: a single left-to-right scan; whenever a
hole's `offset + length` equals the next hole's offset the two are merged
(lengths summed, second dropped) and scanning resumes at the merged hole. -/
def mergeHoles : List Extent → List Extent
  | [] => []
  | [e] => [e]
  | e₁ :: e₂ :: rest =>
    if e₁.offset + e₁.length = e₂.offset then
      mergeHoles (⟨e₁.offset, e₁.length + e₂.length⟩ :: rest)
    else
      e₁ :: mergeHoles (e₂ :: rest)
termination_by l => l.length

/-- The serialized hole view built by `MemoryManager::getList`: offset/length
pairs truncated to `uint16_t`, preceded by the hole count also truncated to
`uint16_t` (a reader of the buffer therefore sees only the first
`count % 65536` pairs). -/
def holeSnapshot (holes : List Extent) : List (Nat × Nat) :=
  (holes.map fun h => (h.offset % 65536, h.length % 65536)).take (holes.length % 65536)

namespace MemoryManager

/-- Model of `MemoryManager::shutdown`: release the reservation if live (resetting
`memoryLimit`), then clear both ledgers unconditionally. -/
def shutdown (s : MMState) : MMState :=
  let s₁ := if s.live then { s with live := false, capacityWords := 0 } else s
  { s₁ with holeList := [], allocatedList := [] }

/-- Model of `MemoryManager::initialize`: tear down an existing arena, reject
`sizeInWords > MAX_NUM_WORDS` with InvalidSize (note: the source does NOT
reject 0 here, despite its own exception text "range 1 to 65535"), then
reserve `sizeInWords * wordSize` bytes with `mmap`.  `mmapOk` is the
environment's verdict on the reservation; a zero-length `mmap` always fails
(POSIX `EINVAL`), so a zero-byte reservation never succeeds.  On success the
hole ledger is seeded with one extent spanning the arena and the allocation
ledger is cleared. -/
def init (s : MMState) (sizeInWords : Nat) (mmapOk : Bool) :
    MMState × Option InitError :=
  let s₀ := if s.live then shutdown s else s
  if MAX_NUM_WORDS < sizeInWords then
    (s₀, some InitError.invalidSize)
  else if mmapOk ∧ sizeInWords * s₀.wordSize ≠ 0 then
    ({ s₀ with live := true, capacityWords := sizeInWords,
               holeList := [⟨0, sizeInWords⟩], allocatedList := [] }, none)
  else
    (s₀, some InitError.outOfMemory)

/-- Model of `MemoryManager::getList`: `nullptr` when the hole ledger is empty,
otherwise the serialized snapshot. -/
def getList (s : MMState) : Option (List (Nat × Nat)) :=
  if s.holeList.isEmpty then none else some (holeSnapshot s.holeList)

/-- Model of `MemoryManager::allocate`.  `strat` is the stored allocator function;
returns the updated state and the returned address (a byte offset from the
arena base; `none` is the null pointer). -/
def allocate (s : MMState) (strat : Nat → List (Nat × Nat) → Option Nat)
    (sizeInBytes : Nat) : MMState × Option Nat :=
  if s.live = false ∨ sizeInBytes = 0 then (s, none)
  else
    let sizeInWords := (sizeInBytes + s.wordSize - 1) / s.wordSize
    match getList s with
    | none => (s, none)
    | some snap =>
      match strat sizeInWords snap with
      | none => (s, none)
      | some wordOffset =>
        match commitHole wordOffset sizeInWords s.holeList with
        | none => (s, none)
        | some newHoles =>
          ({ s with holeList := newHoles,
                    allocatedList := insertOrdered ⟨wordOffset, sizeInWords⟩ s.allocatedList },
           some (wordOffset * s.wordSize))

/-- Model of `MemoryManager::free`: for a non-null address with a live arena, compute
the truncated word offset, remove the first matching allocation, reinsert its
extent into the hole ledger in offset order, and (unless the removed length
was zero — the `allocatedLength == 0` check in the source) coalesce. -/
def free (s : MMState) (address : Option Nat) : MMState :=
  match address with
  | none => s
  | some a =>
    if s.live = false then s
    else
      let wordOffset := a / s.wordSize
      match removeFirstByOffset wordOffset s.allocatedList with
      | none => s
      | some (len, rest) =>
        let s₁ := { s with allocatedList := rest,
                           holeList := insertOrdered ⟨wordOffset, len⟩ s.holeList }
        if len = 0 then s₁ else { s₁ with holeList := mergeHoles s₁.holeList }

end MemoryManager

/-- The body of the `bestFit` loop, accumulator-passing: `bestOffset` starts
at `-1` (modelled `none`), `bestLength` at `MAX_NUM_WORDS + 1`; a hole
updates the accumulator when `length >= sizeInWords && length < bestLength`. -/
def bestFitLoop (sizeInWords : Nat) (bestOffset : Option Nat) (bestLength : Nat) :
    List (Nat × Nat) → Option Nat × Nat
  | [] => (bestOffset, bestLength)
  | (o, l) :: rest =>
    if sizeInWords ≤ l ∧ l < bestLength then bestFitLoop sizeInWords (some o) l rest
    else bestFitLoop sizeInWords bestOffset bestLength rest

/-- Model of `bestFit` from the source: smallest suitable hole, first occurrence wins
ties (the update uses a strict `<`). -/
def bestFit (sizeInWords : Nat) (holes : List (Nat × Nat)) : Option Nat :=
  (bestFitLoop sizeInWords none (MAX_NUM_WORDS + 1) holes).1

/-- The body of the `worstFit` loop: `bestLength` starts at `-1` (an `int`
in the source, so modelled as `Int`); a hole updates the accumulator when
`length >= sizeInWords && length > bestLength`. -/
def worstFitLoop (sizeInWords : Nat) (bestOffset : Option Nat) (bestLength : Int) :
    List (Nat × Nat) → Option Nat × Int
  | [] => (bestOffset, bestLength)
  | (o, l) :: rest =>
    if sizeInWords ≤ l ∧ bestLength < (l : Int) then worstFitLoop sizeInWords (some o) (l : Int) rest
    else worstFitLoop sizeInWords bestOffset bestLength rest

/-- Model of `worstFit` from the source: largest suitable hole, first occurrence wins
ties (the update uses a strict `>`). -/
def worstFit (sizeInWords : Nat) (holes : List (Nat × Nat)) : Option Nat :=
  (worstFitLoop sizeInWords none (-1) holes).1

-- Sanity checks on small concrete inputs.
example : bestFit 2 [(0, 4), (10, 2), (20, 8)] = some 10 := by decide
example : worstFit 2 [(0, 4), (10, 2), (20, 8)] = some 20 := by decide
example : bestFit 9 [(0, 4), (10, 2), (20, 8)] = none := by decide
example : mergeHoles [⟨0, 2⟩, ⟨2, 3⟩, ⟨5, 1⟩, ⟨8, 1⟩] = [⟨0, 6⟩, ⟨8, 1⟩] := by
  simp [mergeHoles]

/-! ## Invariants and reachability -/

/-- Number of extents in `l` that cover word index `i`. -/
def extCount (i : Nat) : List Extent → Nat
  | [] => 0
  | e :: es => (if e.offset ≤ i ∧ i < e.offset + e.length then 1 else 0) + extCount i es

/-- Separation between consecutive hole-ledger entries: strictly non-adjacent
(the no-adjacency invariant). -/
def holeRel (a b : Extent) : Prop := a.offset + a.length < b.offset

/-- Separation between consecutive allocation-ledger entries: non-overlap. -/
def blockRel (a b : Extent) : Prop := a.offset + a.length ≤ b.offset

instance : IsTrans Extent holeRel where
  trans a b c hab hbc := by
    unfold holeRel at *
    omega

instance : IsTrans Extent blockRel where
  trans a b c hab hbc := by
    unfold blockRel at *
    omega

/-- The allocator's state invariant: positive word size, the 16-bit capacity
ceiling, the tiling of `[0, capacityWords)` by the two ledgers, ordering and
separation inside each ledger, positive extent lengths, and that a dead arena
has zero capacity. -/
structure MMInv (s : MMState) : Prop where
  wordPos : 0 < s.wordSize
  capLe : s.capacityWords ≤ MAX_NUM_WORDS
  tiling : ∀ i, extCount i s.holeList + extCount i s.allocatedList
      = if i < s.capacityWords then 1 else 0
  holeChain : List.Chain' holeRel s.holeList
  holePos : ∀ e ∈ s.holeList, 0 < e.length
  blockChain : List.Chain' blockRel s.allocatedList
  blockPos : ∀ e ∈ s.allocatedList, 0 < e.length
  deadCap : s.live = false → s.capacityWords = 0

/-- A strategy is sound when every offset it returns is the offset of some
snapshot hole large enough for the request (the contract of §4.4). -/
def SoundStrategy (strat : Nat → List (Nat × Nat) → Option Nat) : Prop :=
  ∀ req holes o, strat req holes = some o → ∃ l, (o, l) ∈ holes ∧ req ≤ l

/-- States reachable from a freshly constructed manager (positive word size)
by any sequence of `initialize` / `allocate` (with any sound strategy, which
covers `setAllocator` swaps) / `free` / `shutdown` calls. -/
inductive Reachable : MMState → Prop where
  | base : ∀ w, 0 < w → Reachable ⟨w, false, 0, [], []⟩
  | reinit : ∀ s n mo, Reachable s → Reachable (MemoryManager.init s n mo).1
  | alloc : ∀ s strat b, Reachable s → SoundStrategy strat →
      Reachable (MemoryManager.allocate s strat b).1
  | dealloc : ∀ s a, Reachable s → Reachable (MemoryManager.free s a)
  | down : ∀ s, Reachable s → Reachable (MemoryManager.shutdown s)

/-! ## Basic counting lemmas -/

theorem extCount_append (i : Nat) (l₁ l₂ : List Extent) :
    extCount i (l₁ ++ l₂) = extCount i l₁ + extCount i l₂ := by
  induction l₁ with
  | nil => simp [extCount]
  | cons x xs ih => simp [extCount, ih]; omega

theorem extCount_insertOrdered (i : Nat) (e : Extent) (l : List Extent) :
    extCount i (insertOrdered e l)
      = (if e.offset ≤ i ∧ i < e.offset + e.length then 1 else 0) + extCount i l := by
  induction l with
  | nil => simp [insertOrdered, extCount]
  | cons x xs ih =>
    by_cases h : x.offset < e.offset
    · simp [insertOrdered, h, extCount, ih]; omega
    · simp [insertOrdered, h, extCount]

theorem extCount_eq_zero (i : Nat) (l : List Extent) :
    extCount i l = 0 ↔ ∀ e ∈ l, ¬(e.offset ≤ i ∧ i < e.offset + e.length) := by
  induction l with
  | nil => simp [extCount]
  | cons x xs ih =>
    simp only [extCount]
    constructor
    · intro h e he hc
      have h2 : extCount i xs = 0 := by omega
      rcases List.mem_cons.mp he with rfl | he'
      · rw [if_pos hc] at h
        omega
      · exact ih.mp h2 e he' hc
    · intro h
      rw [if_neg (h x (List.mem_cons_self x xs))]
      simpa using ih.mpr fun e he => h e (List.mem_cons_of_mem x he)

theorem le_extCount_of_mem (i : Nat) (e : Extent) (l : List Extent) (hm : e ∈ l)
    (h₁ : e.offset ≤ i) (h₂ : i < e.offset + e.length) : 1 ≤ extCount i l := by
  induction l with
  | nil => cases hm
  | cons x xs ih =>
    rcases List.mem_cons.mp hm with rfl | hm'
    · simp [extCount, h₁, h₂]
    · have := ih hm'
      simp only [extCount]
      omega

theorem extCount_mergeHoles (i : Nat) : ∀ l : List Extent,
    extCount i (mergeHoles l) = extCount i l := by
  intro l
  induction l using mergeHoles.induct with
  | case1 => simp [mergeHoles]
  | case2 e => simp [mergeHoles]
  | case3 e₁ e₂ rest hadj ih =>
    rw [mergeHoles, if_pos hadj, ih]
    simp only [extCount]
    split_ifs <;> omega
  | case4 e₁ e₂ rest hadj ih =>
    rw [mergeHoles, if_neg hadj]
    simp only [extCount, ih]

/-! ## Ordering and separation lemmas -/

theorem holeRel_blockRel {a b : Extent} (h : holeRel a b) : blockRel a b :=
  Nat.le_of_lt h

theorem chain'_pairwise_hole {l : List Extent} (h : List.Chain' holeRel l) :
    List.Pairwise holeRel l :=
  List.chain'_iff_pairwise.mp h

theorem chain'_pairwise_block {l : List Extent} (h : List.Chain' blockRel l) :
    List.Pairwise blockRel l :=
  List.chain'_iff_pairwise.mp h

/-- Offsets in a hole-separated list are strictly increasing. -/
theorem pairwise_offset_lt_of_chain_hole {l : List Extent} (h : List.Chain' holeRel l) :
    List.Pairwise (fun a b : Extent => a.offset < b.offset) l :=
  (chain'_pairwise_hole h).imp fun hab => by unfold holeRel at hab; omega

/-- Offsets in a block-separated list with positive lengths are strictly
increasing. -/
theorem pairwise_offset_lt_of_chain_block {l : List Extent} (h : List.Chain' blockRel l)
    (hpos : ∀ e ∈ l, 0 < e.length) :
    List.Pairwise (fun a b : Extent => a.offset < b.offset) l := by
  induction l with
  | nil => exact List.Pairwise.nil
  | cons x xs ih =>
    rcases List.chain'_cons'.mp h with ⟨hhd, htl⟩
    refine List.Pairwise.cons ?_ (ih htl fun e he => hpos e (List.mem_cons_of_mem x he))
    intro b hb
    have hxpos : 0 < x.length := hpos x (List.mem_cons_self x xs)
    have : blockRel x b := by
      have hp := chain'_pairwise_block h
      exact (List.pairwise_cons.mp hp).1 b hb
    unfold blockRel at this
    omega

/-- The head of `insertOrdered e l` is either `e` or the head of `l`. -/
theorem insertOrdered_head (e : Extent) (l : List Extent) :
    (insertOrdered e l).head? = some e ∨ (insertOrdered e l).head? = l.head? := by
  cases l with
  | nil => simp [insertOrdered]
  | cons x xs =>
    by_cases h : x.offset < e.offset
    · simp [insertOrdered, h]
    · simp [insertOrdered, h]

/-- Inserting an extent that overlaps no member of a block-separated list
with positive lengths keeps the list block-separated. -/
theorem chain'_insertOrdered (e : Extent) (l : List Extent)
    (hc : List.Chain' blockRel l)
    (hdisj : ∀ a ∈ l, a.offset + a.length ≤ e.offset ∨ e.offset + e.length ≤ a.offset)
    (hpos : ∀ a ∈ l, 0 < a.length) :
    List.Chain' blockRel (insertOrdered e l) := by
  induction l with
  | nil => simp [insertOrdered]
  | cons x xs ih =>
    rcases List.chain'_cons'.mp hc with ⟨hhd, htl⟩
    by_cases h : x.offset < e.offset
    · have hxe : blockRel x e := by
        rcases hdisj x (List.mem_cons_self x xs) with hd | hd
        · exact hd
        · exact absurd h (by unfold blockRel at *; omega)
      simp only [insertOrdered, if_pos h]
      refine List.chain'_cons'.mpr ⟨?_, ih htl
        (fun a ha => hdisj a (List.mem_cons_of_mem x ha))
        (fun a ha => hpos a (List.mem_cons_of_mem x ha))⟩
      intro y hy
      rcases insertOrdered_head e xs with he | hx
      · rw [he] at hy
        exact (Option.some_inj.mp hy) ▸ hxe
      · rw [hx] at hy
        exact hhd y hy
    · have hex : blockRel e x := by
        rcases hdisj x (List.mem_cons_self x xs) with hd | hd
        · have hxpos := hpos x (List.mem_cons_self x xs)
          exact absurd hd (by unfold blockRel at *; omega)
        · exact hd
      simp only [insertOrdered, if_neg h]
      exact List.chain'_cons'.mpr ⟨fun y hy => by
        cases hy
        exact hex, List.chain'_cons'.mpr ⟨hhd, htl⟩⟩

/-- Every member of `insertOrdered e l` is `e` or a member of `l`. -/
theorem mem_insertOrdered {a e : Extent} {l : List Extent} :
    a ∈ insertOrdered e l ↔ a = e ∨ a ∈ l := by
  induction l with
  | nil => simp [insertOrdered]
  | cons x xs ih =>
    by_cases h : x.offset < e.offset
    · simp only [insertOrdered, if_pos h, List.mem_cons, ih]
      tauto
    · simp only [insertOrdered, if_neg h, List.mem_cons]

/-! ## Structural lemmas about `mergeHoles` -/

/-- Coalescing a nonempty ledger keeps the first hole's offset and can only
grow its length. -/
theorem mergeHoles_cons_head : ∀ l : List Extent, ∀ e₀ l₀, l = e₀ :: l₀ →
    ∃ len rest, mergeHoles l = ⟨e₀.offset, len⟩ :: rest ∧ e₀.length ≤ len := by
  intro l
  induction l using mergeHoles.induct with
  | case1 => intro e₀ l₀ h; cases h
  | case2 e =>
    intro e₀ l₀ h
    cases h
    exact ⟨e.length, [], by simp [mergeHoles], le_refl _⟩
  | case3 e₁ e₂ rest hadj ih =>
    intro e₀ l₀ h
    cases h
    obtain ⟨len, r, hr, hle⟩ := ih _ _ rfl
    refine ⟨len, r, ?_, by simpa using Nat.le_trans (Nat.le_add_right _ _) hle⟩
    rw [mergeHoles, if_pos hadj]
    exact hr
  | case4 e₁ e₂ rest hadj ih =>
    intro e₀ l₀ h
    cases h
    exact ⟨e₁.length, mergeHoles (e₂ :: rest), by rw [mergeHoles, if_neg hadj], le_refl _⟩

/-- Coalescing a block-separated ledger with positive lengths yields a
strictly hole-separated (non-adjacent) ledger with positive lengths. -/
theorem mergeHoles_chain : ∀ l : List Extent, List.Chain' blockRel l →
    (∀ e ∈ l, 0 < e.length) →
    List.Chain' holeRel (mergeHoles l) ∧ ∀ e ∈ mergeHoles l, 0 < e.length := by
  intro l
  induction l using mergeHoles.induct with
  | case1 => intro _ _; simp [mergeHoles]
  | case2 e => intro _ hp; simpa [mergeHoles] using hp
  | case3 e₁ e₂ rest hadj ih =>
    intro hc hp
    rw [mergeHoles, if_pos hadj]
    rcases List.chain'_cons'.mp hc with ⟨_, hc₂⟩
    rcases List.chain'_cons'.mp hc₂ with ⟨hhd₂, hcr⟩
    refine ih ?_ ?_
    · refine List.chain'_cons'.mpr ⟨?_, hcr⟩
      intro y hy
      have := hhd₂ y hy
      unfold blockRel at *
      simp only
      omega
    · intro e he
      rcases List.mem_cons.mp he with rfl | he'
      · have := hp e₁ (List.mem_cons_self _ _)
        simp only
        omega
      · exact hp e (List.mem_cons_of_mem _ (List.mem_cons_of_mem _ he'))
  | case4 e₁ e₂ rest hadj ih =>
    intro hc hp
    rw [mergeHoles, if_neg hadj]
    rcases List.chain'_cons'.mp hc with ⟨hhd, hc₂⟩
    have hrel₁₂ : blockRel e₁ e₂ := hhd e₂ (by simp)
    obtain ⟨ihc, ihp⟩ := ih hc₂ fun e he => hp e (List.mem_cons_of_mem _ he)
    constructor
    · refine List.chain'_cons'.mpr ⟨?_, ihc⟩
      intro y hy
      obtain ⟨len, r, hr, _⟩ := mergeHoles_cons_head (e₂ :: rest) e₂ rest rfl
      rw [hr] at hy
      cases hy
      unfold holeRel
      unfold blockRel at hrel₁₂
      simp only
      omega
    · intro e he
      rcases List.mem_cons.mp he with rfl | he'
      · exact hp e (List.mem_cons_self _ _)
      · exact ihp e he'

/-- Coalescing an already non-adjacent ledger is the identity. -/
theorem mergeHoles_eq_self : ∀ l : List Extent, List.Chain' holeRel l →
    mergeHoles l = l := by
  intro l
  induction l using mergeHoles.induct with
  | case1 => intro _; simp [mergeHoles]
  | case2 e => intro _; simp [mergeHoles]
  | case3 e₁ e₂ rest hadj ih =>
    intro hc
    rcases List.chain'_cons'.mp hc with ⟨hhd, _⟩
    have := hhd e₂ (by simp)
    unfold holeRel at this
    omega
  | case4 e₁ e₂ rest hadj ih =>
    intro hc
    rcases List.chain'_cons'.mp hc with ⟨_, hc₂⟩
    rw [mergeHoles, if_neg hadj, ih hc₂]

/-- Coalescing skips over a strictly separated non-adjacent portion. -/
theorem mergeHoles_append : ∀ pre : List Extent, ∀ x : Extent, ∀ rest : List Extent,
    List.Chain' holeRel (pre ++ [x]) →
    mergeHoles (pre ++ x :: rest) = pre ++ mergeHoles (x :: rest) := by
  intro pre
  induction pre with
  | nil => intro x rest _; rfl
  | cons p pre' ih =>
    intro x rest hc
    rcases List.chain'_cons'.mp hc with ⟨hhd, hc'⟩
    cases pre' with
    | nil =>
      have hrel : holeRel p x := hhd x (by simp)
      have hne : p.offset + p.length ≠ x.offset := Nat.ne_of_lt hrel
      simp only [List.nil_append, List.cons_append]
      rw [mergeHoles, if_neg hne]
    | cons q pre'' =>
      have hrel : holeRel p q := hhd q (by simp)
      have hne : p.offset + p.length ≠ q.offset := Nat.ne_of_lt hrel
      simp only [List.cons_append]
      rw [mergeHoles, if_neg hne]
      have := ih x rest hc'
      simp only [List.cons_append] at this
      rw [this]

/-! ## Decomposition lemmas for the ledger scans -/

theorem removeFirst_of_decomp (b : Extent) : ∀ pre post : List Extent,
    (∀ p ∈ pre, p.offset ≠ b.offset) →
    removeFirstByOffset b.offset (pre ++ b :: post) = some (b.length, pre ++ post) := by
  intro pre
  induction pre with
  | nil => intro post _; simp [removeFirstByOffset]
  | cons p pre' ih =>
    intro post hpre
    have hne : p.offset ≠ b.offset := hpre p (List.mem_cons_self _ _)
    have hih := ih post fun q hq => hpre q (List.mem_cons_of_mem _ hq)
    simp [removeFirstByOffset, hne, hih]

theorem removeFirst_none (off : Nat) : ∀ l : List Extent,
    (∀ p ∈ l, p.offset ≠ off) → removeFirstByOffset off l = none := by
  intro l
  induction l with
  | nil => intro _; rfl
  | cons x xs ih =>
    intro h
    simp only [removeFirstByOffset, if_neg (h x (List.mem_cons_self _ _)),
      ih fun q hq => h q (List.mem_cons_of_mem _ hq)]

theorem commitHole_of_decomp (h : Extent) (req : Nat) : ∀ pre post : List Extent,
    (∀ p ∈ pre, p.offset ≠ h.offset) →
    commitHole h.offset req (pre ++ h :: post)
      = some (pre ++ (if h.length = req then post else ⟨h.offset + req, h.length - req⟩ :: post)) := by
  intro pre
  induction pre with
  | nil =>
    intro post _
    simp [commitHole]
  | cons p pre' ih =>
    intro post hpre
    have hne : p.offset ≠ h.offset := hpre p (List.mem_cons_self _ _)
    have hih := ih post fun q hq => hpre q (List.mem_cons_of_mem _ hq)
    simp [commitHole, hne, hih]

theorem insertOrdered_of_decomp (e : Extent) : ∀ pre post : List Extent,
    (∀ p ∈ pre, p.offset < e.offset) →
    (∀ q ∈ post.head?, ¬ q.offset < e.offset) →
    insertOrdered e (pre ++ post) = pre ++ e :: post := by
  intro pre
  induction pre with
  | nil =>
    intro post _ hpost
    cases post with
    | nil => rfl
    | cons q qs =>
      have : ¬ q.offset < e.offset := hpost q rfl
      simp [insertOrdered, this]
  | cons p pre' ih =>
    intro post hpre hpost
    have hp : p.offset < e.offset := hpre p (List.mem_cons_self _ _)
    simp only [List.cons_append, insertOrdered, if_pos hp]
    exact congrArg (fun t => p :: t)
      (ih post (fun q hq => hpre q (List.mem_cons_of_mem _ hq)) hpost)

/-! ## Facts derived from the invariant -/

/-- Every hole lies inside the arena. -/
theorem MMInv.hole_le_cap {s : MMState} (hI : MMInv s) {e : Extent} (he : e ∈ s.holeList) :
    e.offset + e.length ≤ s.capacityWords := by
  have hpos := hI.holePos e he
  have hcov := le_extCount_of_mem (e.offset + e.length - 1) e s.holeList he (by omega) (by omega)
  have := hI.tiling (e.offset + e.length - 1)
  by_contra hc
  rw [if_neg (by omega)] at this
  omega

/-- Every allocated block lies inside the arena. -/
theorem MMInv.block_le_cap {s : MMState} (hI : MMInv s) {e : Extent}
    (he : e ∈ s.allocatedList) : e.offset + e.length ≤ s.capacityWords := by
  have hpos := hI.blockPos e he
  have hcov := le_extCount_of_mem (e.offset + e.length - 1) e s.allocatedList he (by omega) (by omega)
  have := hI.tiling (e.offset + e.length - 1)
  by_contra hc
  rw [if_neg (by omega)] at this
  omega

/-- No allocated block covers a word covered by a hole. -/
theorem MMInv.block_not_cover {s : MMState} (hI : MMInv s) {e : Extent}
    (he : e ∈ s.holeList) {i : Nat} (h₁ : e.offset ≤ i) (h₂ : i < e.offset + e.length) :
    ∀ b ∈ s.allocatedList, ¬(b.offset ≤ i ∧ i < b.offset + b.length) := by
  have hcov := le_extCount_of_mem i e s.holeList he h₁ h₂
  have ht := hI.tiling i
  have : extCount i s.allocatedList = 0 := by
    by_cases hi : i < s.capacityWords
    · rw [if_pos hi] at ht; omega
    · rw [if_neg hi] at ht; omega
  exact (extCount_eq_zero i s.allocatedList).mp this

/-- No hole covers a word covered by an allocated block. -/
theorem MMInv.hole_not_cover {s : MMState} (hI : MMInv s) {b : Extent}
    (hb : b ∈ s.allocatedList) {i : Nat} (h₁ : b.offset ≤ i) (h₂ : i < b.offset + b.length) :
    ∀ e ∈ s.holeList, ¬(e.offset ≤ i ∧ i < e.offset + e.length) := by
  have hcov := le_extCount_of_mem i b s.allocatedList hb h₁ h₂
  have ht := hI.tiling i
  have : extCount i s.holeList = 0 := by
    by_cases hi : i < s.capacityWords
    · rw [if_pos hi] at ht; omega
    · rw [if_neg hi] at ht; omega
  exact (extCount_eq_zero i s.holeList).mp this

/-- A list of extents with strictly increasing offsets, all below `c`, has at
most `c` entries. -/
theorem length_le_of_offsets_lt : ∀ (l : List Extent) (a c : Nat),
    List.Pairwise (fun x y : Extent => x.offset < y.offset) l →
    (∀ e ∈ l, a ≤ e.offset) → (∀ e ∈ l, e.offset < c) → l.length ≤ c - a := by
  intro l
  induction l with
  | nil => intro a c _ _ _; simp
  | cons x xs ih =>
    intro a c hp hlo hhi
    rcases List.pairwise_cons.mp hp with ⟨hx, hp'⟩
    have h₁ : a ≤ x.offset := hlo x (List.mem_cons_self _ _)
    have h₂ : x.offset < c := hhi x (List.mem_cons_self _ _)
    have := ih (x.offset + 1) c hp'
      (fun e he => hx e he)
      (fun e he => hhi e (List.mem_cons_of_mem _ he))
    simp only [List.length_cons]
    omega

/-! ## Characterization of the placement-strategy loops -/

theorem bestFitLoop_some (req : Nat) : ∀ (holes : List (Nat × Nat)) (bo : Option Nat)
    (bl : Nat) (o rl : Nat), bestFitLoop req bo bl holes = (some o, rl) →
    (bo = some o ∧ rl = bl ∧ ∀ p ∈ holes, ¬(req ≤ p.2 ∧ p.2 < bl))
    ∨ (∃ pre post, holes = pre ++ (o, rl) :: post ∧ req ≤ rl ∧ rl < bl
        ∧ (∀ p ∈ pre, ¬(req ≤ p.2 ∧ p.2 ≤ rl))
        ∧ (∀ p ∈ post, ¬(req ≤ p.2 ∧ p.2 < rl))) := by
  intro holes
  induction holes with
  | nil =>
    intro bo bl o rl h
    simp only [bestFitLoop] at h
    exact Or.inl ⟨congrArg Prod.fst h, (congrArg Prod.snd h).symm, by simp⟩
  | cons hd rest ih =>
    intro bo bl o rl h
    obtain ⟨po, pl⟩ := hd
    by_cases hq : req ≤ pl ∧ pl < bl
    · rw [bestFitLoop, if_pos hq] at h
      rcases ih (some po) pl o rl h with ⟨hbo, hrl, hall⟩ | ⟨pre, post, heq, hreq, hlt, hpre, hpost⟩
      · refine Or.inr ⟨[], rest, ?_, ?_, ?_, by simp, ?_⟩
        · rw [List.nil_append, Option.some_inj.mp hbo, hrl]
        · exact hrl ▸ hq.1
        · exact hrl ▸ hq.2
        · intro p hp
          exact hrl ▸ hall p hp
      · refine Or.inr ⟨(po, pl) :: pre, post, by rw [heq, List.cons_append], hreq,
          Nat.lt_trans hlt hq.2, ?_, hpost⟩
        intro p hp
        rcases List.mem_cons.mp hp with rfl | hp'
        · simp only
          omega
        · exact hpre p hp'
    · rw [bestFitLoop, if_neg hq] at h
      rcases ih bo bl o rl h with ⟨hbo, hrl, hall⟩ | ⟨pre, post, heq, hreq, hlt, hpre, hpost⟩
      · refine Or.inl ⟨hbo, hrl, ?_⟩
        intro p hp
        rcases List.mem_cons.mp hp with rfl | hp'
        · exact hq
        · exact hall p hp'
      · refine Or.inr ⟨(po, pl) :: pre, post, by rw [heq, List.cons_append], hreq, hlt, ?_, hpost⟩
        intro p hp
        rcases List.mem_cons.mp hp with rfl | hp'
        · simp only
          omega
        · exact hpre p hp'

theorem bestFitLoop_none (req : Nat) : ∀ (holes : List (Nat × Nat)) (bo : Option Nat)
    (bl rl : Nat), bestFitLoop req bo bl holes = (none, rl) →
    bo = none ∧ ∀ p ∈ holes, ¬(req ≤ p.2 ∧ p.2 < bl) := by
  intro holes
  induction holes with
  | nil =>
    intro bo bl rl h
    simp only [bestFitLoop] at h
    exact ⟨congrArg Prod.fst h, by simp⟩
  | cons hd rest ih =>
    intro bo bl rl h
    obtain ⟨po, pl⟩ := hd
    by_cases hq : req ≤ pl ∧ pl < bl
    · rw [bestFitLoop, if_pos hq] at h
      exact absurd (ih _ _ _ h).1 (by simp)
    · rw [bestFitLoop, if_neg hq] at h
      obtain ⟨hbo, hall⟩ := ih _ _ _ h
      refine ⟨hbo, ?_⟩
      intro p hp
      rcases List.mem_cons.mp hp with rfl | hp'
      · exact hq
      · exact hall p hp'

theorem bestFitLoop_const (req : Nat) : ∀ (holes : List (Nat × Nat)) (bo : Option Nat)
    (bl : Nat), (∀ p ∈ holes, ¬(req ≤ p.2 ∧ p.2 < bl)) →
    bestFitLoop req bo bl holes = (bo, bl) := by
  intro holes
  induction holes with
  | nil => intro bo bl _; rfl
  | cons hd rest ih =>
    intro bo bl hall
    obtain ⟨po, pl⟩ := hd
    rw [bestFitLoop, if_neg (hall (po, pl) (List.mem_cons_self _ _))]
    exact ih bo bl fun p hp => hall p (List.mem_cons_of_mem _ hp)

/-- The `bestFit` strategy only picks suitable holes from the snapshot. -/
theorem bestFit_sound : SoundStrategy bestFit := by
  intro req holes o h
  unfold bestFit at h
  have hr : bestFitLoop req none (MAX_NUM_WORDS + 1) holes
      = (some o, (bestFitLoop req none (MAX_NUM_WORDS + 1) holes).2) := by
    rw [← h]
  rcases bestFitLoop_some req holes none _ o _ hr with ⟨hbo, _, _⟩ |
    ⟨pre, post, heq2, hreq, _, _, _⟩
  · exact absurd hbo (by simp)
  · generalize hg : (bestFitLoop req none (MAX_NUM_WORDS + 1) holes).2 = rl at heq2 hreq
    refine ⟨rl, ?_, hreq⟩
    rw [heq2]
    exact List.mem_append_right _ (List.mem_cons_self _ _)


theorem worstFitLoop_some (req : Nat) : ∀ (holes : List (Nat × Nat)) (bo : Option Nat)
    (bl : Int) (o : Nat) (rl : Int), worstFitLoop req bo bl holes = (some o, rl) →
    (bo = some o ∧ rl = bl ∧ ∀ p ∈ holes, ¬(req ≤ p.2 ∧ bl < (p.2 : Int)))
    ∨ (∃ (l : Nat) (pre post : List (Nat × Nat)),
        holes = pre ++ (o, l) :: post ∧ rl = (l : Int) ∧ req ≤ l ∧ bl < (l : Int)
        ∧ (∀ p ∈ pre, ¬(req ≤ p.2 ∧ l ≤ p.2))
        ∧ (∀ p ∈ post, ¬(req ≤ p.2 ∧ l < p.2))) := by
  intro holes
  induction holes with
  | nil =>
    intro bo bl o rl h
    simp only [worstFitLoop] at h
    exact Or.inl ⟨congrArg Prod.fst h, (congrArg Prod.snd h).symm, by simp⟩
  | cons hd rest ih =>
    intro bo bl o rl h
    obtain ⟨po, pl⟩ := hd
    by_cases hq : req ≤ pl ∧ bl < (pl : Int)
    · rw [worstFitLoop, if_pos hq] at h
      rcases ih (some po) pl o rl h with ⟨hbo, hrl, hall⟩ |
        ⟨l, pre, post, heq, hrl, hreq, hlt, hpre, hpost⟩
      · refine Or.inr ⟨pl, [], rest, ?_, hrl, hq.1, hq.2, by simp, ?_⟩
        · rw [List.nil_append, Option.some_inj.mp hbo]
        · intro p hp hc
          exact hall p hp ⟨hc.1, by exact_mod_cast hc.2⟩
      · refine Or.inr ⟨l, (po, pl) :: pre, post, by rw [heq, List.cons_append], hrl, hreq,
          lt_trans hq.2 hlt, ?_, hpost⟩
        intro p hp
        rcases List.mem_cons.mp hp with rfl | hp'
        · simp only
          omega
        · exact hpre p hp'
    · rw [worstFitLoop, if_neg hq] at h
      rcases ih bo bl o rl h with ⟨hbo, hrl, hall⟩ |
        ⟨l, pre, post, heq, hrl, hreq, hlt, hpre, hpost⟩
      · refine Or.inl ⟨hbo, hrl, ?_⟩
        intro p hp
        rcases List.mem_cons.mp hp with rfl | hp'
        · exact hq
        · exact hall p hp'
      · refine Or.inr ⟨l, (po, pl) :: pre, post, by rw [heq, List.cons_append], hrl, hreq, hlt,
          ?_, hpost⟩
        intro p hp
        rcases List.mem_cons.mp hp with rfl | hp'
        · simp only
          omega
        · exact hpre p hp'

theorem worstFitLoop_none (req : Nat) : ∀ (holes : List (Nat × Nat)) (bo : Option Nat)
    (bl rl : Int), worstFitLoop req bo bl holes = (none, rl) →
    bo = none ∧ ∀ p ∈ holes, ¬(req ≤ p.2 ∧ bl < (p.2 : Int)) := by
  intro holes
  induction holes with
  | nil =>
    intro bo bl rl h
    simp only [worstFitLoop] at h
    exact ⟨congrArg Prod.fst h, by simp⟩
  | cons hd rest ih =>
    intro bo bl rl h
    obtain ⟨po, pl⟩ := hd
    by_cases hq : req ≤ pl ∧ bl < (pl : Int)
    · rw [worstFitLoop, if_pos hq] at h
      exact absurd (ih _ _ _ h).1 (by simp)
    · rw [worstFitLoop, if_neg hq] at h
      obtain ⟨hbo, hall⟩ := ih _ _ _ h
      refine ⟨hbo, ?_⟩
      intro p hp
      rcases List.mem_cons.mp hp with rfl | hp'
      · exact hq
      · exact hall p hp'

theorem worstFitLoop_const (req : Nat) : ∀ (holes : List (Nat × Nat)) (bo : Option Nat)
    (bl : Int), (∀ p ∈ holes, ¬(req ≤ p.2 ∧ bl < (p.2 : Int))) →
    worstFitLoop req bo bl holes = (bo, bl) := by
  intro holes
  induction holes with
  | nil => intro bo bl _; rfl
  | cons hd rest ih =>
    intro bo bl hall
    obtain ⟨po, pl⟩ := hd
    rw [worstFitLoop, if_neg (hall (po, pl) (List.mem_cons_self _ _))]
    exact ih bo bl fun p hp => hall p (List.mem_cons_of_mem _ hp)

/-- The `worstFit` strategy only picks suitable holes from the snapshot. -/
theorem worstFit_sound : SoundStrategy worstFit := by
  intro req holes o h
  unfold worstFit at h
  have hr : worstFitLoop req none (-1) holes
      = (some o, (worstFitLoop req none (-1) holes).2) := by
    rw [Prod.ext_iff]
    exact ⟨h, rfl⟩
  rcases worstFitLoop_some req holes none _ o _ hr with ⟨hbo, _, _⟩ |
    ⟨l, pre, post, heq2, _, hreq, _, _, _⟩
  · exact absurd hbo (by simp)
  · refine ⟨l, ?_, hreq⟩
    rw [heq2]
    exact List.mem_append_right _ (List.mem_cons_self _ _)

/-- The `bestFit` result is `none` exactly when no snapshot hole is large
enough (snapshot entries are 16-bit, hence all below `MAX_NUM_WORDS + 1`). -/
theorem bestFit_none_iff (req : Nat) (holes : List (Nat × Nat))
    (h65 : ∀ p ∈ holes, p.2 ≤ MAX_NUM_WORDS) :
    bestFit req holes = none ↔ ∀ p ∈ holes, p.2 < req := by
  constructor
  · intro h
    unfold bestFit at h
    have hr : bestFitLoop req none (MAX_NUM_WORDS + 1) holes
        = (none, (bestFitLoop req none (MAX_NUM_WORDS + 1) holes).2) := by
      rw [Prod.ext_iff]
      exact ⟨h, rfl⟩
    have hall := (bestFitLoop_none req holes none _ _ hr).2
    intro p hp
    have h1 := hall p hp
    have h2 := h65 p hp
    unfold MAX_NUM_WORDS at h1 h2
    omega
  · intro hall
    unfold bestFit
    rw [bestFitLoop_const req holes none (MAX_NUM_WORDS + 1) ?_]
    intro p hp
    have := hall p hp
    omega

/-- The `worstFit` result is `none` exactly when no snapshot hole is large
enough. -/
theorem worstFit_none_iff (req : Nat) (holes : List (Nat × Nat)) :
    worstFit req holes = none ↔ ∀ p ∈ holes, p.2 < req := by
  constructor
  · intro h
    unfold worstFit at h
    have hr : worstFitLoop req none (-1) holes
        = (none, (worstFitLoop req none (-1) holes).2) := by
      rw [Prod.ext_iff]
      exact ⟨h, rfl⟩
    have hall := (worstFitLoop_none req holes none _ _ hr).2
    intro p hp
    have h1 := hall p hp
    omega
  · intro hall
    unfold worstFit
    rw [worstFitLoop_const req holes none (-1) ?_]
    intro p hp
    have := hall p hp
    omega

/-! ## Snapshot identity under the invariant -/

/-- Under the invariant the 16-bit truncation in `getList` is lossless: the
snapshot is exactly the hole ledger's offset/length pairs. -/
theorem holeSnapshot_of_inv {s : MMState} (hI : MMInv s) :
    holeSnapshot s.holeList = s.holeList.map fun h => (h.offset, h.length) := by
  have hcap : s.capacityWords ≤ MAX_NUM_WORDS := hI.capLe
  have hb : ∀ e ∈ s.holeList, e.offset + e.length ≤ s.capacityWords := fun e he =>
    hI.hole_le_cap he
  have hpos := hI.holePos
  have hlen : s.holeList.length ≤ s.capacityWords := by
    have := length_le_of_offsets_lt s.holeList 0 s.capacityWords
      (pairwise_offset_lt_of_chain_hole hI.holeChain)
      (fun e _ => Nat.zero_le _)
      (fun e he => by have h1 := hb e he; have h2 := hpos e he; omega)
    omega
  unfold holeSnapshot
  have hmod : s.holeList.length % 65536 = s.holeList.length :=
    Nat.mod_eq_of_lt (by unfold MAX_NUM_WORDS at hcap; omega)
  rw [hmod]
  have hmap : (s.holeList.map fun h => (h.offset % 65536, h.length % 65536))
      = s.holeList.map fun h => (h.offset, h.length) := by
    apply List.map_congr_left
    intro e he
    have h1 := hb e he
    have h2 := hpos e he
    unfold MAX_NUM_WORDS at hcap
    have ho : e.offset % 65536 = e.offset := Nat.mod_eq_of_lt (by omega)
    have hl : e.length % 65536 = e.length := Nat.mod_eq_of_lt (by omega)
    rw [ho, hl]
  rw [hmap]
  exact List.take_of_length_le (by rw [List.length_map])

/-- The rounded-up word count is positive for a positive byte count. -/
theorem req_pos {w b : Nat} (hw : 0 < w) (hb : b ≠ 0) : 0 < (b + w - 1) / w :=
  Nat.one_le_div_iff hw |>.mpr (by omega)

/-- The rounded-up word count is exactly the ceiling of `b / w`. -/
theorem req_eq_ceilDiv (w b : Nat) : (b + w - 1) / w = b ⌈/⌉ w := by
  rw [Nat.ceilDiv_eq_add_pred_div]

/-! ## The committed allocation step -/

/-- When the strategy picks (the offset of) a hole that is large enough,
`allocate` performs exactly the §4.2 commit: it removes the hole on an exact
fit or advances/shrinks it on a partial fit, inserts the allocation extent in
offset order, and returns the hole's byte address. -/
theorem allocate_commit (s : MMState) (strat : Nat → List (Nat × Nat) → Option Nat)
    (b : Nat) (hI : MMInv s) (hlive : s.live = true) (hb : b ≠ 0) (o L : Nat)
    (hmem : (⟨o, L⟩ : Extent) ∈ s.holeList)
    (hstrat : strat ((b + s.wordSize - 1) / s.wordSize) (holeSnapshot s.holeList) = some o) :
    ∃ pre post, s.holeList = pre ++ ⟨o, L⟩ :: post ∧ (∀ p ∈ pre, p.offset < o) ∧
      MemoryManager.allocate s strat b =
        ({ s with
            holeList := pre ++ (if L = (b + s.wordSize - 1) / s.wordSize then post
              else ⟨o + (b + s.wordSize - 1) / s.wordSize,
                    L - (b + s.wordSize - 1) / s.wordSize⟩ :: post),
            allocatedList :=
              insertOrdered ⟨o, (b + s.wordSize - 1) / s.wordSize⟩ s.allocatedList },
          some (o * s.wordSize)) := by
  obtain ⟨pre, post, hdecomp⟩ := List.append_of_mem hmem
  have hpair := pairwise_offset_lt_of_chain_hole hI.holeChain
  rw [hdecomp] at hpair
  have hpre : ∀ p ∈ pre, p.offset < o := by
    intro p hp
    have := (List.pairwise_append.mp hpair).2.2 p hp ⟨o, L⟩ (List.mem_cons_self _ _)
    simpa using this
  refine ⟨pre, post, hdecomp, hpre, ?_⟩
  have hne : s.holeList.isEmpty = false := by
    rw [hdecomp]
    cases pre <;> simp
  have hgl : MemoryManager.getList s = some (holeSnapshot s.holeList) := by
    simp [MemoryManager.getList, hne]
  have hch := commitHole_of_decomp ⟨o, L⟩ ((b + s.wordSize - 1) / s.wordSize) pre post
    (fun p hp => Nat.ne_of_lt (hpre p hp))
  simp only at hch
  rw [← hdecomp] at hch
  unfold MemoryManager.allocate
  rw [if_neg (by simp [hlive, hb])]
  simp only [hgl, hstrat, hch]

/-! ## Invariant preservation -/

theorem MMInv.shutdown_pres {s : MMState} (hI : MMInv s) :
    MMInv (MemoryManager.shutdown s) := by
  have hcap : (MemoryManager.shutdown s).capacityWords = 0 := by
    unfold MemoryManager.shutdown
    by_cases h : s.live
    · simp [h]
    · simp [h, hI.deadCap (by simpa using h)]
  have hw : (MemoryManager.shutdown s).wordSize = s.wordSize := by
    unfold MemoryManager.shutdown
    by_cases h : s.live <;> simp [h]
  have hh : (MemoryManager.shutdown s).holeList = [] := by
    unfold MemoryManager.shutdown
    by_cases h : s.live <;> simp [h]
  have ha : (MemoryManager.shutdown s).allocatedList = [] := by
    unfold MemoryManager.shutdown
    by_cases h : s.live <;> simp [h]
  refine ⟨?_, ?_, ?_, ?_, ?_, ?_, ?_, ?_⟩
  · rw [hw]; exact hI.wordPos
  · rw [hcap]; exact Nat.zero_le _
  · intro i
    rw [hcap, hh, ha]
    simp [extCount]
  · rw [hh]; exact List.chain'_nil
  · rw [hh]; intro e he; cases he
  · rw [ha]; exact List.chain'_nil
  · rw [ha]; intro e he; cases he
  · intro _; exact hcap

theorem MMInv.init_pres {s : MMState} (hI : MMInv s) (n : Nat) (mo : Bool) :
    MMInv (MemoryManager.init s n mo).1 := by
  unfold MemoryManager.init
  have hI₀ : MMInv (if s.live then MemoryManager.shutdown s else s) := by
    by_cases h : s.live
    · rw [if_pos h]; exact hI.shutdown_pres
    · rw [if_neg h]; exact hI
  by_cases h1 : MAX_NUM_WORDS < n
  · simp only [if_pos h1]
    exact hI₀
  · simp only [if_neg h1]
    by_cases h2 : mo ∧ n * (if s.live then MemoryManager.shutdown s else s).wordSize ≠ 0
    · simp only [if_pos h2]
      have hn : n ≠ 0 := by
        intro h
        rw [h] at h2
        simp at h2
      refine ⟨hI₀.wordPos, by simpa using Nat.le_of_not_lt h1, ?_, ?_, ?_, ?_, ?_, ?_⟩
      · intro i
        simp only [extCount]
        split_ifs <;> omega
      · exact List.chain'_singleton _
      · intro e he
        rcases List.mem_singleton.mp he with rfl
        simpa using Nat.pos_of_ne_zero hn
      · exact List.chain'_nil
      · intro e he; cases he
      · intro h; cases h
    · simp only [if_neg h2]
      exact hI₀

/-- Either `allocate` leaves the state unchanged (returning null), or the
active strategy picked a suitable hole of the ledger. -/
theorem allocate_cases (s : MMState) (strat : Nat → List (Nat × Nat) → Option Nat)
    (b : Nat) (hI : MMInv s) (hs : SoundStrategy strat) :
    MemoryManager.allocate s strat b = (s, none) ∨
    (s.live = true ∧ b ≠ 0 ∧ ∃ o L, (⟨o, L⟩ : Extent) ∈ s.holeList ∧
      strat ((b + s.wordSize - 1) / s.wordSize) (holeSnapshot s.holeList) = some o ∧
      (b + s.wordSize - 1) / s.wordSize ≤ L) := by
  by_cases h0 : s.live = false ∨ b = 0
  · left
    unfold MemoryManager.allocate
    rw [if_pos h0]
  · have hlive : s.live = true := by
      cases hl : s.live
      · exact absurd (Or.inl hl) h0
      · rfl
    have hb : b ≠ 0 := fun h => h0 (Or.inr h)
    by_cases hne : s.holeList.isEmpty
    · left
      unfold MemoryManager.allocate MemoryManager.getList
      rw [if_neg h0]
      simp [hne]
    · have hgl : MemoryManager.getList s = some (holeSnapshot s.holeList) := by
        simp [MemoryManager.getList, hne]
      rcases hstrat : strat ((b + s.wordSize - 1) / s.wordSize) (holeSnapshot s.holeList)
        with _ | o
      · left
        unfold MemoryManager.allocate
        rw [if_neg h0]
        simp only [hgl, hstrat]
      · obtain ⟨l, hlmem, hreq⟩ := hs _ _ _ hstrat
        rw [holeSnapshot_of_inv hI] at hlmem
        obtain ⟨e, hemem, heq⟩ := List.mem_map.mp hlmem
        have he1 : e.offset = o := congrArg Prod.fst heq
        have he2 : e.length = l := congrArg Prod.snd heq
        right
        refine ⟨hlive, hb, o, l, ?_, rfl, hreq⟩
        have hee : e = ⟨o, l⟩ := by
          cases e
          simp only at he1 he2
          rw [he1, he2]
        rw [← hee]
        exact hemem

/-- Allocation preserves the state invariant (for any sound strategy). -/
theorem MMInv.allocate_pres {s : MMState} (hI : MMInv s)
    (strat : Nat → List (Nat × Nat) → Option Nat) (hs : SoundStrategy strat) (b : Nat) :
    MMInv (MemoryManager.allocate s strat b).1 := by
  rcases allocate_cases s strat b hI hs with heq | ⟨hlive, hb, o, L, hmem, hstrat, hfit⟩
  · rw [heq]
    exact hI
  · obtain ⟨pre, post, hdecomp, hpre, hres⟩ :=
      allocate_commit s strat b hI hlive hb o L hmem hstrat
    rw [hres]
    dsimp only
    have hreqpos : 0 < (b + s.wordSize - 1) / s.wordSize := req_pos hI.wordPos hb
    have hLpos : 0 < L := by
      have := hI.holePos ⟨o, L⟩ hmem
      simpa using this
    have hdisj : ∀ a ∈ s.allocatedList,
        a.offset + a.length ≤ o ∨ o + (b + s.wordSize - 1) / s.wordSize ≤ a.offset := by
      intro a ha
      by_contra hc
      push_neg at hc
      obtain ⟨hc1, hc2⟩ := hc
      have hapos : 0 < a.length := hI.blockPos a ha
      by_cases hao : a.offset ≤ o
      · exact hI.block_not_cover hmem (by simp) (by simp only; omega) a ha
          ⟨hao, by omega⟩
      · exact hI.block_not_cover hmem (le_of_lt (by omega : o < a.offset))
          (by simp only; omega) a ha ⟨le_refl _, by omega⟩
    have hchain := hI.holeChain
    rw [hdecomp] at hchain
    rcases List.chain'_append.mp hchain with ⟨hcpre, hcrest, hlink⟩
    rcases List.chain'_cons'.mp hcrest with ⟨hhd, hcpost⟩
    refine ⟨hI.wordPos, hI.capLe, ?_, ?_, ?_, ?_, ?_, ?_⟩
    · intro i
      have htile := hI.tiling i
      rw [hdecomp, extCount_append] at htile
      rw [extCount_append, extCount_insertOrdered]
      simp only [extCount] at htile ⊢
      by_cases hex : L = (b + s.wordSize - 1) / s.wordSize
      · rw [if_pos hex]
        rw [hex] at htile
        omega
      · rw [if_neg hex]
        simp only [extCount]
        have hsplit : (if o ≤ i ∧ i < o + L then 1 else 0)
            = (if o ≤ i ∧ i < o + (b + s.wordSize - 1) / s.wordSize then 1 else 0)
              + (if o + (b + s.wordSize - 1) / s.wordSize ≤ i ∧
                  i < o + (b + s.wordSize - 1) / s.wordSize
                    + (L - (b + s.wordSize - 1) / s.wordSize) then 1 else 0) := by
          split_ifs <;> omega
        omega
    · by_cases hex : L = (b + s.wordSize - 1) / s.wordSize
      · rw [if_pos hex]
        refine List.chain'_append.mpr ⟨hcpre, hcpost, ?_⟩
        intro x hx y hy
        have h1 := hlink x hx ⟨o, L⟩ rfl
        have h2 := hhd y hy
        unfold holeRel at *
        simp only at h1 h2
        omega
      · rw [if_neg hex]
        refine List.chain'_append.mpr ⟨hcpre, ?_, ?_⟩
        · refine List.chain'_cons'.mpr ⟨?_, hcpost⟩
          intro y hy
          have h2 := hhd y hy
          unfold holeRel at *
          simp only at h2 ⊢
          omega
        · intro x hx y hy
          cases hy
          have h1 := hlink x hx ⟨o, L⟩ rfl
          unfold holeRel at *
          simp only at h1 ⊢
          omega
    · intro e he
      by_cases hex : L = (b + s.wordSize - 1) / s.wordSize
      · rw [if_pos hex] at he
        rcases List.mem_append.mp he with h | h
        · exact hI.holePos e (by rw [hdecomp]; exact List.mem_append_left _ h)
        · exact hI.holePos e (by
            rw [hdecomp]
            exact List.mem_append_right _ (List.mem_cons_of_mem _ h))
      · rw [if_neg hex] at he
        rcases List.mem_append.mp he with h | h
        · exact hI.holePos e (by rw [hdecomp]; exact List.mem_append_left _ h)
        · rcases List.mem_cons.mp h with rfl | h'
          · simp only
            omega
          · exact hI.holePos e (by
              rw [hdecomp]
              exact List.mem_append_right _ (List.mem_cons_of_mem _ h'))
    · exact chain'_insertOrdered _ _ hI.blockChain hdisj hI.blockPos
    · intro e he
      rcases mem_insertOrdered.mp he with rfl | h
      · exact hreqpos
      · exact hI.blockPos e h
    · intro h
      rw [hlive] at h
      cases h

/-- Inversion of a successful `free` scan: the list splits at the first block
whose offset matches. -/
theorem removeFirst_some (off : Nat) : ∀ (l : List Extent) (len : Nat) (rest : List Extent),
    removeFirstByOffset off l = some (len, rest) →
    ∃ pre post b, l = pre ++ b :: post ∧ b.offset = off ∧ b.length = len ∧
      rest = pre ++ post ∧ ∀ p ∈ pre, p.offset ≠ off := by
  intro l
  induction l with
  | nil => intro len rest h; cases h
  | cons x xs ih =>
    intro len rest h
    by_cases hx : x.offset = off
    · rw [removeFirstByOffset, if_pos hx] at h
      injection h with h'
      have hlen : x.length = len := congrArg Prod.fst h'
      have hrest : xs = rest := congrArg Prod.snd h'
      exact ⟨[], xs, x, rfl, hx, hlen, hrest.symm, by simp⟩
    · rw [removeFirstByOffset, if_neg hx] at h
      rcases hr : removeFirstByOffset off xs with _ | ⟨len', ys⟩
      · rw [hr] at h; cases h
      · rw [hr] at h
        injection h with h'
        have hlen : len' = len := congrArg Prod.fst h'
        have hrest : x :: ys = rest := congrArg Prod.snd h'
        obtain ⟨pre, post, b, hdec, hboff, hblen, hys, hpre⟩ := ih len' ys hr
        refine ⟨x :: pre, post, b, by rw [List.cons_append, ← hdec], hboff,
          hlen ▸ hblen, ?_, ?_⟩
        · rw [← hrest, hys, List.cons_append]
        · intro p hp
          rcases List.mem_cons.mp hp with rfl | hp'
          · exact hx
          · exact hpre p hp'

/-- Deallocation preserves the state invariant. -/
theorem MMInv.free_pres {s : MMState} (hI : MMInv s) (a : Option Nat) :
    MMInv (MemoryManager.free s a) := by
  match a with
  | none => exact hI
  | some a =>
    simp only [MemoryManager.free]
    by_cases hl : s.live = false
    · rw [if_pos hl]
      exact hI
    · rw [if_neg hl]
      rcases hrem : removeFirstByOffset (a / s.wordSize) s.allocatedList with _ | ⟨len, rest⟩
      · exact hI
      · obtain ⟨pre, post, blk, hdec, hboff, hblen, hrest, hpre⟩ :=
          removeFirst_some _ _ _ _ hrem
        have hblkmem : blk ∈ s.allocatedList := by
          rw [hdec]
          exact List.mem_append_right _ (List.mem_cons_self _ _)
        have hlenpos : 0 < len := by
          rw [← hblen]
          exact hI.blockPos blk hblkmem
        dsimp only
        rw [if_neg (show ¬len = 0 by omega)]
        have hblkeq : (⟨a / s.wordSize, len⟩ : Extent) = blk := by
          cases blk
          simp only at hboff hblen ⊢
          rw [hboff, hblen]
        have hdisj : ∀ e ∈ s.holeList,
            e.offset + e.length ≤ a / s.wordSize ∨ a / s.wordSize + len ≤ e.offset := by
          intro e he
          by_contra hc
          push_neg at hc
          obtain ⟨hc1, hc2⟩ := hc
          have hepos : 0 < e.length := hI.holePos e he
          by_cases heo : e.offset ≤ a / s.wordSize
          · exact hI.hole_not_cover hblkmem (le_of_eq hboff)
              (by rw [hboff]; omega) e he ⟨heo, by omega⟩
          · exact hI.hole_not_cover hblkmem (by rw [hboff]; omega)
              (by rw [hboff]; omega) e he ⟨le_refl _, by omega⟩
        have hmerge := mergeHoles_chain (insertOrdered ⟨a / s.wordSize, len⟩ s.holeList)
          (chain'_insertOrdered _ _ (hI.holeChain.imp fun _ _ hab => holeRel_blockRel hab)
            hdisj hI.holePos)
          (by
            intro e he
            rcases mem_insertOrdered.mp he with rfl | h
            · exact hlenpos
            · exact hI.holePos e h)
        have hchainb := hI.blockChain
        rw [hdec] at hchainb
        rcases List.chain'_append.mp hchainb with ⟨hcpre, hcrest, hlink⟩
        rcases List.chain'_cons'.mp hcrest with ⟨hhd, hcpost⟩
        refine ⟨hI.wordPos, hI.capLe, ?_, hmerge.1, hmerge.2, ?_, ?_, ?_⟩
        · intro i
          dsimp only
          have htile := hI.tiling i
          rw [hdec, extCount_append] at htile
          simp only [extCount] at htile
          rw [extCount_mergeHoles, extCount_insertOrdered, hrest, extCount_append]
          rw [← hblkeq] at htile
          simp only at htile ⊢
          omega
        · rw [hrest]
          refine List.chain'_append.mpr ⟨hcpre, hcpost, ?_⟩
          intro x hx y hy
          have h1 := hlink x hx blk rfl
          have h2 := hhd y hy
          unfold blockRel at *
          omega
        · intro e he
          rw [hrest] at he
          rcases List.mem_append.mp he with h | h
          · exact hI.blockPos e (by rw [hdec]; exact List.mem_append_left _ h)
          · exact hI.blockPos e (by
              rw [hdec]
              exact List.mem_append_right _ (List.mem_cons_of_mem _ h))
        · intro h
          exact absurd h hl

/-- Every reachable state satisfies the invariant. -/
theorem reachable_inv {s : MMState} (h : Reachable s) : MMInv s := by
  induction h with
  | base w hw =>
    refine ⟨hw, Nat.zero_le _, ?_, List.chain'_nil, ?_, List.chain'_nil, ?_, fun _ => rfl⟩
    · intro i
      simp [extCount]
    · intro e he; cases he
    · intro e he; cases he
  | reinit s n mo _ ih => exact ih.init_pres n mo
  | alloc s strat b _ hs ih => exact ih.allocate_pres strat hs b
  | dealloc s a _ ih => exact ih.free_pres a
  | down s _ ih => exact ih.shutdown_pres

/-! ## The hole-map dump (`dumpMemoryMap`) -/

/-- The text written for one hole by `dumpMemoryMap`:
`"[" + offset + ", " + length + "]"`. -/
def holeEntryString (e : Extent) : String :=
  "[" ++ toString e.offset ++ ", " ++ toString e.length ++ "]"

/-- The write loop of `dumpMemoryMap`.  `writeOk` is the environment's verdict
on each `write` call, numbered in call order starting at `i`; the `String`
accumulates the bytes actually written.  A hole's entry write is checked
(`nb == -1` aborts with failure); the separator write between entries is
issued but its result is ignored, exactly as in the source. -/
def dumpGo (writeOk : Nat → Bool) : List Extent → Nat → String → Bool × String
  | [], _, acc => (true, acc)
  | e :: rest, i, acc =>
    if writeOk i then
      match rest with
      | [] => (true, acc ++ holeEntryString e)
      | _ :: _ =>
        dumpGo writeOk rest (i + 2)
          (if writeOk (i + 1) then acc ++ holeEntryString e ++ " - "
           else acc ++ holeEntryString e)
    else (false, acc)

/-- Model of `MemoryManager::dumpMemoryMap` over an environment oracle:
`openOk` is the verdict on `open` (which creates/truncates the file),
`writeOk` on each numbered `write` call, `closeOk` on `close`.  Returns the
`int` result (`0` success, `-1` failure) and the file's final content.  When
an entry write fails the source closes and returns `-1` whatever `close`
says, so `closeOk` is ignored on that path. -/
def dumpMemoryMap (holes : List Extent) (openOk : Bool) (writeOk : Nat → Bool)
    (closeOk : Bool) : Int × String :=
  if openOk = false then (-1, "")
  else
    let r := dumpGo writeOk holes 0 ""
    if r.1 = false then (-1, r.2)
    else if closeOk = false then (-1, r.2)
    else (0, r.2)

/-- Rendering of the hole ledger described by the spec (§6): one
`[offset, length]` entry per hole, consecutive entries separated by
`" - "`, no trailing separator, no trailing newline. -/
def renderHoleMap : List Extent → String
  | [] => ""
  | [e] => holeEntryString e
  | e :: r :: rest => holeEntryString e ++ " - " ++ renderHoleMap (r :: rest)

/-- All entry writes succeeding, the loop writes exactly the spec rendering. -/
theorem dumpGo_all_ok (writeOk : Nat → Bool) (hall : ∀ j, writeOk j = true) :
    ∀ (holes : List Extent) (i : Nat) (acc : String),
      dumpGo writeOk holes i acc = (true, acc ++ renderHoleMap holes) := by
  intro holes
  induction holes with
  | nil =>
    intro i acc
    simp [dumpGo, renderHoleMap]
  | cons e rest ih =>
    intro i acc
    match rest with
    | [] => simp [dumpGo, hall, renderHoleMap]
    | r :: rest' =>
      rw [dumpGo]
      rw [if_pos (hall i), if_pos (hall (i + 1)), ih]
      rw [renderHoleMap]
      simp [String.append_assoc]

/-- The loop succeeds exactly when every entry write (call `i + 2k` for the
`k`-th remaining hole) succeeds. -/
theorem dumpGo_ok_iff (writeOk : Nat → Bool) : ∀ (holes : List Extent) (i : Nat) (acc : String),
    (dumpGo writeOk holes i acc).1 = true ↔
      ∀ k < holes.length, writeOk (i + 2 * k) = true := by
  intro holes
  induction holes with
  | nil =>
    intro i acc
    simp [dumpGo]
  | cons e rest ih =>
    intro i acc
    match rest with
    | [] =>
      rw [dumpGo]
      by_cases hw : writeOk i
      · rw [if_pos hw]
        constructor
        · intro _ k hk
          have hk0 : k = 0 := by
            simp only [List.length_cons, List.length_nil] at hk
            omega
          subst hk0
          simpa using hw
        · intro _
          trivial
      · rw [if_neg hw]
        constructor
        · intro h
          exact absurd h (by simp)
        · intro h
          exact absurd (by simpa using h 0 (by simp)) hw
    | r :: rest' =>
      rw [dumpGo]
      by_cases hw : writeOk i
      · rw [if_pos hw, ih]
        constructor
        · intro h k hk
          match k with
          | 0 => simpa using hw
          | k' + 1 =>
            have h2 := h k' (by
              simp only [List.length_cons] at hk ⊢
              omega)
            have harg : i + 2 * (k' + 1) = i + 2 + 2 * k' := by omega
            rw [harg]
            exact h2
        · intro h k hk
          have h2 := h (k + 1) (by
            simp only [List.length_cons] at hk ⊢
            omega)
          have harg : i + 2 * (k + 1) = i + 2 + 2 * k := by omega
          rw [← harg]
          exact h2
      · rw [if_neg hw]
        constructor
        · intro h
          exact absurd h (by simp)
        · intro h
          exact absurd (by simpa using h 0 (by simp)) hw

/-! ## Example states used by the witnesses -/

/-- A freshly constructed manager with word size 4. -/
def mm0 : MMState := ⟨4, false, 0, [], []⟩

/-- After `initialize(8)`. -/
def mm1 : MMState := (MemoryManager.init mm0 8 true).1

/-- After one 4-byte best-fit allocation (word 0). -/
def mm2 : MMState := (MemoryManager.allocate mm1 bestFit 4).1

/-- After a second 4-byte best-fit allocation (word 1). -/
def mm3 : MMState := (MemoryManager.allocate mm2 bestFit 4).1

theorem reach_mm1 : Reachable mm1 :=
  Reachable.reinit mm0 8 true (Reachable.base 4 (by decide))

theorem reach_mm2 : Reachable mm2 :=
  Reachable.alloc mm1 bestFit 4 reach_mm1 bestFit_sound

theorem reach_mm3 : Reachable mm3 :=
  Reachable.alloc mm2 bestFit 4 reach_mm2 bestFit_sound

theorem mm1_eval : mm1 = ⟨4, true, 8, [⟨0, 8⟩], []⟩ := by decide

theorem mm3_eval : mm3 = ⟨4, true, 8, [⟨2, 6⟩], [⟨0, 1⟩, ⟨1, 1⟩]⟩ := by decide

theorem mm3_free_eval :
    MemoryManager.free mm3 (some 0) = ⟨4, true, 8, [⟨0, 1⟩, ⟨2, 6⟩], [⟨1, 1⟩]⟩ := by
  rw [mm3_eval]
  simp [MemoryManager.free, removeFirstByOffset, insertOrdered, mergeHoles]

/-! ## Claim theorems -/

/-- C1 (code bug): contrary to the spec — and to the source's own exception
text "range 1 to 65535" — `initialize(0)` does not fail with InvalidSize: the
range check is only `sizeInWords > MAX_NUM_WORDS`, so 0 passes validation and
the call fails only at the zero-length reservation, as OutOfMemory.  65536 is
rejected with InvalidSize, 65535 succeeds, and both failing calls leave the
arena not-live. -/
theorem claim_C1_init_range_check :
    (MemoryManager.init mm0 0 true).2 = some InitError.outOfMemory ∧
    (MemoryManager.init mm0 0 false).2 = some InitError.outOfMemory ∧
    ¬(MemoryManager.init mm0 0 true).2 = some InitError.invalidSize ∧
    (MemoryManager.init mm0 65536 true).2 = some InitError.invalidSize ∧
    (MemoryManager.init mm0 65535 true).2 = none ∧
    (MemoryManager.init mm0 0 true).1.live = false ∧
    (MemoryManager.init mm0 65536 true).1.live = false := by
  decide

/-- C2: in every reachable allocator state the hole ledger and the allocation
ledger together tile `[0, capacityWords)` exactly: each word index below the
capacity is covered by exactly one extent across the two ledgers, and no word
at or beyond the capacity is covered by any. -/
theorem claim_C2_tiling (s : MMState) (h : Reachable s) :
    ∀ i, extCount i s.holeList + extCount i s.allocatedList
      = if i < s.capacityWords then 1 else 0 :=
  (reachable_inv h).tiling

theorem claim_C2_tiling_witness :
    Reachable mm3 ∧ (extCount 3 mm3.holeList + extCount 3 mm3.allocatedList
      = if 3 < mm3.capacityWords then 1 else 0) :=
  ⟨reach_mm3, claim_C2_tiling mm3 reach_mm3 3⟩

/-- C3: immediately after any `free` call on a reachable state, any two holes
`h₁, h₂` with `h₁.offset < h₂.offset` satisfy the strict separation
`h₁.offset + h₁.length < h₂.offset` — no two holes are adjacent. -/
theorem claim_C3_no_adjacency (s : MMState) (a : Option Nat) (h : Reachable s) :
    ∀ h₁ ∈ (MemoryManager.free s a).holeList, ∀ h₂ ∈ (MemoryManager.free s a).holeList,
      h₁.offset < h₂.offset → h₁.offset + h₁.length < h₂.offset := by
  have hI := reachable_inv (Reachable.dealloc s a h)
  have hp := chain'_pairwise_hole hI.holeChain
  have hp' : List.Pairwise (fun x y : Extent => holeRel x y ∨ holeRel y x)
      (MemoryManager.free s a).holeList := hp.imp fun hab => Or.inl hab
  intro h₁ hm₁ h₂ hm₂ hlt
  have hne : h₁ ≠ h₂ := by
    intro he
    rw [he] at hlt
    exact absurd hlt (lt_irrefl _)
  rcases hp'.forall (fun x y hxy => hxy.symm) hm₁ hm₂ hne with hr | hr
  · exact hr
  · unfold holeRel at hr
    omega

theorem claim_C3_no_adjacency_witness :
    Reachable mm3 ∧ (⟨0, 1⟩ : Extent) ∈ (MemoryManager.free mm3 (some 0)).holeList ∧
    (⟨2, 6⟩ : Extent) ∈ (MemoryManager.free mm3 (some 0)).holeList ∧
    (⟨0, 1⟩ : Extent).offset < (⟨2, 6⟩ : Extent).offset ∧
    (⟨0, 1⟩ : Extent).offset + (⟨0, 1⟩ : Extent).length < (⟨2, 6⟩ : Extent).offset :=
  ⟨reach_mm3, by rw [mm3_free_eval]; simp, by rw [mm3_free_eval]; simp, by decide,
   claim_C3_no_adjacency mm3 (some 0) reach_mm3 ⟨0, 1⟩ (by rw [mm3_free_eval]; simp)
     ⟨2, 6⟩ (by rw [mm3_free_eval]; simp) (by decide)⟩

/-- C5: over any 16-bit hole snapshot, `bestFit` returns `none` exactly when
no hole is large enough, and otherwise the offset of the first hole of
minimal length among those with `length ≥ requestedWords`; on
`[(0,4),(10,2),(20,8)]` a 2-word request selects offset 10. -/
theorem claim_C5_bestFit :
    (∀ (req : Nat) (holes : List (Nat × Nat)), (∀ p ∈ holes, p.2 ≤ MAX_NUM_WORDS) →
      ((bestFit req holes = none ↔ ∀ p ∈ holes, p.2 < req) ∧
       ∀ o, bestFit req holes = some o →
         ∃ pre l post, holes = pre ++ (o, l) :: post ∧ req ≤ l ∧
           (∀ p ∈ holes, req ≤ p.2 → l ≤ p.2) ∧
           (∀ p ∈ pre, req ≤ p.2 → l < p.2)))
    ∧ bestFit 2 [(0, 4), (10, 2), (20, 8)] = some 10 := by
  constructor
  · intro req holes h65
    refine ⟨bestFit_none_iff req holes h65, ?_⟩
    intro o ho
    unfold bestFit at ho
    have hr : bestFitLoop req none (MAX_NUM_WORDS + 1) holes
        = (some o, (bestFitLoop req none (MAX_NUM_WORDS + 1) holes).2) := by
      rw [Prod.ext_iff]
      exact ⟨ho, rfl⟩
    rcases bestFitLoop_some req holes none _ o _ hr with ⟨hbo, _, _⟩ |
      ⟨pre, post, heq, hreq, _, hpre, hpost⟩
    · exact absurd hbo (by simp)
    · generalize hg : (bestFitLoop req none (MAX_NUM_WORDS + 1) holes).2 = l
        at heq hreq hpre hpost
      refine ⟨pre, l, post, heq, hreq, ?_, ?_⟩
      · intro p hp hple
        rw [heq] at hp
        rcases List.mem_append.mp hp with hm | hm
        · have := hpre p hm
          omega
        · rcases List.mem_cons.mp hm with rfl | hm'
          · exact Nat.le_refl _
          · have := hpost p hm'
            omega
      · intro p hp hple
        have := hpre p hp
        omega
  · decide

theorem claim_C5_bestFit_witness :
    (∀ p ∈ [((0 : Nat), (4 : Nat)), (10, 2), (20, 8)], p.2 ≤ MAX_NUM_WORDS) ∧
    (bestFit 2 [(0, 4), (10, 2), (20, 8)] = none ↔
      ∀ p ∈ [((0 : Nat), (4 : Nat)), (10, 2), (20, 8)], p.2 < 2) :=
  ⟨by decide, (claim_C5_bestFit.1 2 [(0, 4), (10, 2), (20, 8)] (by decide)).1⟩

/-- C6: over any hole snapshot, `worstFit` returns `none` exactly when no
hole is large enough, and otherwise the offset of the first hole of maximal
length among those with `length ≥ requestedWords`; on `[(0,4),(10,2),(20,8)]`
a 2-word request selects offset 20. -/
theorem claim_C6_worstFit :
    (∀ (req : Nat) (holes : List (Nat × Nat)),
      ((worstFit req holes = none ↔ ∀ p ∈ holes, p.2 < req) ∧
       ∀ o, worstFit req holes = some o →
         ∃ pre l post, holes = pre ++ (o, l) :: post ∧ req ≤ l ∧
           (∀ p ∈ holes, req ≤ p.2 → p.2 ≤ l) ∧
           (∀ p ∈ pre, req ≤ p.2 → p.2 < l)))
    ∧ worstFit 2 [(0, 4), (10, 2), (20, 8)] = some 20 := by
  constructor
  · intro req holes
    refine ⟨worstFit_none_iff req holes, ?_⟩
    intro o ho
    unfold worstFit at ho
    have hr : worstFitLoop req none (-1) holes
        = (some o, (worstFitLoop req none (-1) holes).2) := by
      rw [Prod.ext_iff]
      exact ⟨ho, rfl⟩
    rcases worstFitLoop_some req holes none _ o _ hr with ⟨hbo, _, _⟩ |
      ⟨l, pre, post, heq, _, hreq, _, hpre, hpost⟩
    · exact absurd hbo (by simp)
    · refine ⟨pre, l, post, heq, hreq, ?_, ?_⟩
      · intro p hp hple
        rw [heq] at hp
        rcases List.mem_append.mp hp with hm | hm
        · have := hpre p hm
          omega
        · rcases List.mem_cons.mp hm with rfl | hm'
          · exact Nat.le_refl _
          · have := hpost p hm'
            omega
      · intro p hp hple
        have := hpre p hp
        omega
  · decide

theorem claim_C6_worstFit_witness :
    (worstFit 2 [(0, 4), (10, 2), (20, 8)] = none ↔
      ∀ p ∈ [((0 : Nat), (4 : Nat)), (10, 2), (20, 8)], p.2 < 2) :=
  (claim_C6_worstFit.1 2 [(0, 4), (10, 2), (20, 8)]).1

/-- C9 (counterexample): the separator write's return value is not checked,
so a run in which write call 1 (the `" - "` separator) fails still returns
success (0) — and the separator bytes are simply missing from the file.  The
claim "returns a failure result whenever any write fails" is therefore false
as stated. -/
theorem claim_C9_counterexample :
    (dumpMemoryMap [⟨0, 1⟩, ⟨2, 1⟩] true (fun i => i != 1) true).1 = 0 ∧
    (fun i : Nat => i != 1) 1 = false ∧
    (dumpMemoryMap [⟨0, 1⟩, ⟨2, 1⟩] true (fun i => i != 1) true).2 = "[0, 1][2, 1]" := by
  refine ⟨rfl, rfl, rfl⟩

/-- C9 (amended): `dumpMemoryMap` writes the holes as `[offset, length]`
entries separated by `" - "` (no trailing separator or newline) into the
file created/truncated at the path; it returns success exactly when the open
succeeds, every hole-ENTRY write succeeds (entry `k` is write call `2k`),
and the close succeeds — a failed separator write is not detected. -/
theorem claim_C9_dump (holes : List Extent) (openOk : Bool) (writeOk : Nat → Bool)
    (closeOk : Bool) :
    ((dumpMemoryMap holes openOk writeOk closeOk).1 = 0 ∨
     (dumpMemoryMap holes openOk writeOk closeOk).1 = -1)
    ∧ ((dumpMemoryMap holes openOk writeOk closeOk).1 = 0 ↔
        openOk = true ∧ (∀ k < holes.length, writeOk (2 * k) = true) ∧ closeOk = true)
    ∧ ((openOk = true ∧ (∀ j, writeOk j = true) ∧ closeOk = true) →
        (dumpMemoryMap holes openOk writeOk closeOk).2 = renderHoleMap holes) := by
  unfold dumpMemoryMap
  by_cases ho : openOk = false
  · rw [if_pos ho]
    refine ⟨Or.inr rfl, ?_, ?_⟩
    · constructor
      · intro h
        exact absurd h (by decide)
      · rintro ⟨h1, _⟩
        rw [ho] at h1
        cases h1
    · rintro ⟨h1, _⟩
      rw [ho] at h1
      cases h1
  · rw [if_neg ho]
    have hoT : openOk = true := by
      cases h : openOk
      · exact absurd h ho
      · rfl
    dsimp only
    by_cases hfail : (dumpGo writeOk holes 0 "").1 = false
    · rw [if_pos hfail]
      refine ⟨Or.inr rfl, ?_, ?_⟩
      · constructor
        · intro h
          simp at h
        · rintro ⟨_, hw, _⟩
          have hok := (dumpGo_ok_iff writeOk holes 0 "").mpr (by
            intro k hk
            simpa using hw k hk)
          rw [hok] at hfail
          cases hfail
      · rintro ⟨_, hw, _⟩
        have := dumpGo_all_ok writeOk hw holes 0 ""
        rw [this] at hfail
        cases hfail
    · rw [if_neg hfail]
      have hok : (dumpGo writeOk holes 0 "").1 = true := by
        cases h : (dumpGo writeOk holes 0 "").1
        · exact absurd h hfail
        · rfl
      by_cases hc : closeOk = false
      · rw [if_pos hc]
        refine ⟨Or.inr rfl, ?_, ?_⟩
        · constructor
          · intro h
            simp at h
          · rintro ⟨_, _, h3⟩
            rw [hc] at h3
            cases h3
        · rintro ⟨_, _, h3⟩
          rw [hc] at h3
          cases h3
      · rw [if_neg hc]
        have hcT : closeOk = true := by
          cases h : closeOk
          · exact absurd h hc
          · rfl
        refine ⟨Or.inl rfl, ?_, ?_⟩
        · constructor
          · intro _
            refine ⟨hoT, ?_, hcT⟩
            have := (dumpGo_ok_iff writeOk holes 0 "").mp hok
            intro k hk
            simpa using this k hk
          · intro _
            rfl
        · rintro ⟨_, hw, _⟩
          rw [dumpGo_all_ok writeOk hw holes 0 ""]
          simp

theorem claim_C9_dump_witness :
    (true = true ∧ (∀ j : Nat, (fun _ : Nat => true) j = true) ∧ true = true) ∧
    (dumpMemoryMap [⟨0, 4⟩, ⟨5, 2⟩] true (fun _ => true) true).2
      = renderHoleMap [⟨0, 4⟩, ⟨5, 2⟩] :=
  ⟨⟨rfl, fun _ => rfl, rfl⟩,
   (claim_C9_dump [⟨0, 4⟩, ⟨5, 2⟩] true (fun _ => true) true).2.2 ⟨rfl, fun _ => rfl, rfl⟩⟩

/-- Snapshot entries are 16-bit, hence never exceed `MAX_NUM_WORDS`. -/
theorem holeSnapshot_le (holes : List Extent) :
    ∀ p ∈ holeSnapshot holes, p.2 ≤ MAX_NUM_WORDS := by
  intro p hp
  unfold holeSnapshot at hp
  have hp' := List.mem_of_mem_take hp
  obtain ⟨e, _, heq⟩ := List.mem_map.mp hp'
  have h2 : e.length % 65536 = p.2 := congrArg Prod.snd heq
  unfold MAX_NUM_WORDS
  omega

/-- A committed allocation extent overlaps no live allocation. -/
theorem alloc_disjoint {s : MMState} (hI : MMInv s) {o L : Nat}
    (hmem : (⟨o, L⟩ : Extent) ∈ s.holeList) {req : Nat} (hfit : req ≤ L) :
    ∀ a ∈ s.allocatedList, a.offset + a.length ≤ o ∨ o + req ≤ a.offset := by
  intro a ha
  by_contra hc
  push_neg at hc
  obtain ⟨hc1, hc2⟩ := hc
  have hapos : 0 < a.length := hI.blockPos a ha
  have hLpos : 0 < L := by
    have := hI.holePos ⟨o, L⟩ hmem
    simpa using this
  by_cases hao : a.offset ≤ o
  · exact hI.block_not_cover hmem (by simp) (by simp only; omega) a ha ⟨hao, by omega⟩
  · exact hI.block_not_cover hmem (le_of_lt (by omega : o < a.offset))
      (by simp only; omega) a ha ⟨le_refl _, by omega⟩

/-- A freed allocation extent overlaps no hole. -/
theorem free_disjoint {s : MMState} (hI : MMInv s) {blk : Extent}
    (hblk : blk ∈ s.allocatedList) :
    ∀ e ∈ s.holeList, e.offset + e.length ≤ blk.offset ∨
      blk.offset + blk.length ≤ e.offset := by
  intro e he
  by_contra hc
  push_neg at hc
  obtain ⟨hc1, hc2⟩ := hc
  have hepos : 0 < e.length := hI.holePos e he
  have hbpos : 0 < blk.length := hI.blockPos blk hblk
  by_cases heo : e.offset ≤ blk.offset
  · exact hI.hole_not_cover hblk (le_refl _) (by omega) e he ⟨heo, by omega⟩
  · exact hI.hole_not_cover hblk (by omega) (by omega) e he ⟨le_refl _, by omega⟩

/-- Removing the offset of a just-inserted extent recovers it and the
original list. -/
theorem removeFirst_insertOrdered (e : Extent) : ∀ l : List Extent,
    removeFirstByOffset e.offset (insertOrdered e l) = some (e.length, l) := by
  intro l
  induction l with
  | nil => simp [insertOrdered, removeFirstByOffset]
  | cons x xs ih =>
    by_cases h : x.offset < e.offset
    · rw [insertOrdered, if_pos h]
      rw [removeFirstByOffset, if_neg (by omega : ¬x.offset = e.offset), ih]
    · rw [insertOrdered, if_neg h]
      rw [removeFirstByOffset, if_pos rfl]

/-- C4: when the strategy picks (the offset of) a suitable hole, `allocate`
computes `requested = ceil(sizeBytes / wordSize)`, takes the allocation from
the low end of that hole — removing it on an exact fit, advancing its offset
and shrinking its length by `requested` on a partial fit — inserts the new
allocation extent `{offset, requested}` into the allocation ledger keeping
offset order, and returns the byte address `offset * wordSize` (relative to
the arena base). -/
theorem claim_C4_allocate (s : MMState) (strat : Nat → List (Nat × Nat) → Option Nat)
    (b o L : Nat) (hr : Reachable s) (hlive : s.live = true) (hb : 0 < b)
    (hmem : (⟨o, L⟩ : Extent) ∈ s.holeList)
    (hstrat : strat ((b + s.wordSize - 1) / s.wordSize) (holeSnapshot s.holeList) = some o)
    (hfit : (b + s.wordSize - 1) / s.wordSize ≤ L) :
    (b + s.wordSize - 1) / s.wordSize = b ⌈/⌉ s.wordSize ∧
    (MemoryManager.allocate s strat b).2 = some (o * s.wordSize) ∧
    (MemoryManager.allocate s strat b).1.allocatedList
      = insertOrdered ⟨o, (b + s.wordSize - 1) / s.wordSize⟩ s.allocatedList ∧
    List.Pairwise (fun x y : Extent => x.offset < y.offset)
      (MemoryManager.allocate s strat b).1.allocatedList ∧
    ∃ pre post, s.holeList = pre ++ ⟨o, L⟩ :: post ∧
      (MemoryManager.allocate s strat b).1.holeList
        = pre ++ (if L = (b + s.wordSize - 1) / s.wordSize then post
            else ⟨o + (b + s.wordSize - 1) / s.wordSize,
                  L - (b + s.wordSize - 1) / s.wordSize⟩ :: post) := by
  have hI := reachable_inv hr
  obtain ⟨pre, post, hdecomp, hpre, hres⟩ :=
    allocate_commit s strat b hI hlive (by omega) o L hmem hstrat
  have hreqpos : 0 < (b + s.wordSize - 1) / s.wordSize := req_pos hI.wordPos (by omega)
  refine ⟨req_eq_ceilDiv s.wordSize b, ?_, ?_, ?_, pre, post, hdecomp, ?_⟩
  · rw [hres]
  · rw [hres]
  · rw [hres]
    dsimp only
    apply pairwise_offset_lt_of_chain_block
    · exact chain'_insertOrdered _ _ hI.blockChain (alloc_disjoint hI hmem hfit) hI.blockPos
    · intro e he
      rcases mem_insertOrdered.mp he with rfl | h
      · exact hreqpos
      · exact hI.blockPos e h
  · rw [hres]

theorem claim_C4_allocate_witness :
    Reachable mm1 ∧ mm1.live = true ∧ 0 < 4 ∧ (⟨0, 8⟩ : Extent) ∈ mm1.holeList ∧
    bestFit ((4 + mm1.wordSize - 1) / mm1.wordSize) (holeSnapshot mm1.holeList) = some 0 ∧
    (4 + mm1.wordSize - 1) / mm1.wordSize ≤ 8 ∧
    (MemoryManager.allocate mm1 bestFit 4).2 = some (0 * mm1.wordSize) ∧
    (MemoryManager.allocate mm1 bestFit 4).1.allocatedList
      = insertOrdered ⟨0, (4 + mm1.wordSize - 1) / mm1.wordSize⟩ mm1.allocatedList :=
  ⟨reach_mm1, by decide, by decide, by decide, by decide, by decide,
   (claim_C4_allocate mm1 bestFit 4 0 8 reach_mm1 (by decide) (by decide) (by decide)
     (by decide) (by decide)).2.1,
   (claim_C4_allocate mm1 bestFit 4 0 8 reach_mm1 (by decide) (by decide) (by decide)
     (by decide) (by decide)).2.2.1⟩

/-- C7: with the repository's strategies, `allocate` returns null exactly when
the arena is not live, the request is zero bytes, or no hole is large enough
for the requested word count; and on every null return both ledgers (indeed
the whole state) are unchanged. -/
theorem claim_C7_allocate_null (s : MMState) (strat : Nat → List (Nat × Nat) → Option Nat)
    (b : Nat) (hr : Reachable s) (hstrat : strat = bestFit ∨ strat = worstFit) :
    ((MemoryManager.allocate s strat b).2 = none ↔
      (s.live = false ∨ b = 0 ∨
        ∀ e ∈ s.holeList, e.length < (b + s.wordSize - 1) / s.wordSize))
    ∧ ((MemoryManager.allocate s strat b).2 = none →
        (MemoryManager.allocate s strat b).1 = s) := by
  have hI := reachable_inv hr
  have hsound : SoundStrategy strat := by
    rcases hstrat with rfl | rfl
    · exact bestFit_sound
    · exact worstFit_sound
  have hnone_iff : ∀ req holes, (∀ p ∈ holes, p.2 ≤ MAX_NUM_WORDS) →
      (strat req holes = none ↔ ∀ p ∈ holes, p.2 < req) := by
    rcases hstrat with rfl | rfl
    · exact fun req holes h65 => bestFit_none_iff req holes h65
    · exact fun req holes _ => worstFit_none_iff req holes
  rcases allocate_cases s strat b hI hsound with heqn | ⟨hlive, hb, o, L, hmem, hstrat', hfit⟩
  · refine ⟨?_, ?_⟩
    · rw [heqn]
      simp only [true_iff]
      by_cases hl : s.live = false
      · exact Or.inl hl
      · have hlive : s.live = true := by
          cases hv : s.live
          · exact absurd hv hl
          · rfl
        by_cases hb : b = 0
        · exact Or.inr (Or.inl hb)
        · refine Or.inr (Or.inr ?_)
          by_contra hcon
          push_neg at hcon
          obtain ⟨e, hemem, hlen⟩ := hcon
          have hsnapmem : (e.offset, e.length) ∈ holeSnapshot s.holeList := by
            rw [holeSnapshot_of_inv hI]
            exact List.mem_map_of_mem _ hemem
          have hne : strat ((b + s.wordSize - 1) / s.wordSize) (holeSnapshot s.holeList)
              ≠ none := by
            intro hn
            have := (hnone_iff _ _ (holeSnapshot_le s.holeList)).mp hn
              (e.offset, e.length) hsnapmem
            simp only at this
            omega
          rcases hso : strat ((b + s.wordSize - 1) / s.wordSize) (holeSnapshot s.holeList)
            with _ | o'
          · exact hne hso
          · obtain ⟨l', hl'mem, hfit'⟩ := hsound _ _ _ hso
            rw [holeSnapshot_of_inv hI] at hl'mem
            obtain ⟨e', he'mem, he'eq⟩ := List.mem_map.mp hl'mem
            have hee : e' = ⟨o', l'⟩ := by
              have h1 : e'.offset = o' := congrArg Prod.fst he'eq
              have h2 : e'.length = l' := congrArg Prod.snd he'eq
              cases e'
              simp only at h1 h2
              rw [h1, h2]
            obtain ⟨_, _, _, _, hres⟩ := allocate_commit s strat b hI hlive hb o' l'
              (hee ▸ he'mem) hso
            rw [heqn] at hres
            have := congrArg Prod.snd hres
            simp at this
    · rw [heqn]
      intro _
      rfl
  · obtain ⟨_, _, _, _, hres⟩ := allocate_commit s strat b hI hlive hb o L hmem hstrat'
    refine ⟨?_, ?_⟩
    · rw [hres]
      simp only
      constructor
      · intro h
        cases h
      · intro h
        rcases h with h | h | h
        · rw [hlive] at h
          cases h
        · exact absurd h hb
        · have := h ⟨o, L⟩ hmem
          simp only at this
          omega
    · rw [hres]
      intro h
      cases h

theorem claim_C7_allocate_null_witness :
    Reachable mm1 ∧ (bestFit = bestFit ∨ bestFit = worstFit) ∧
    ((MemoryManager.allocate mm1 bestFit 0).2 = none ↔
      (mm1.live = false ∨ 0 = 0 ∨
        ∀ e ∈ mm1.holeList, e.length < (0 + mm1.wordSize - 1) / mm1.wordSize)) :=
  ⟨reach_mm1, Or.inl rfl,
   (claim_C7_allocate_null mm1 bestFit 0 reach_mm1 (Or.inl rfl)).1⟩

/-- C8: after a successful allocation with no intervening call, freeing the
returned address restores the hole ledger to exactly its pre-allocation
shape. -/
theorem claim_C8_roundtrip (s : MMState) (strat : Nat → List (Nat × Nat) → Option Nat)
    (b : Nat) (s' : MMState) (addr : Nat) (hr : Reachable s)
    (hsound : SoundStrategy strat)
    (halloc : MemoryManager.allocate s strat b = (s', some addr)) :
    (MemoryManager.free s' (some addr)).holeList = s.holeList := by
  have hI := reachable_inv hr
  rcases allocate_cases s strat b hI hsound with heqn | ⟨hlive, hb, o, L, hmem, hstrat', hfit⟩
  · rw [heqn] at halloc
    have := congrArg Prod.snd halloc
    simp at this
  · obtain ⟨pre, post, hdecomp, hpre, hres⟩ :=
      allocate_commit s strat b hI hlive hb o L hmem hstrat'
    rw [halloc] at hres
    have hs' : s' = _ := congrArg Prod.fst hres
    have haddr : addr = o * s.wordSize := by
      have := congrArg Prod.snd hres
      simpa using this
    have hreqpos : 0 < (b + s.wordSize - 1) / s.wordSize := req_pos hI.wordPos hb
    have hchain := hI.holeChain
    rw [hdecomp] at hchain
    rcases List.chain'_append.mp hchain with ⟨hcpre, hcrest, hlink⟩
    rcases List.chain'_cons'.mp hcrest with ⟨hhd, hcpost⟩
    subst haddr
    rw [hs']
    simp only [MemoryManager.free]
    rw [if_neg (show ¬s.live = false by rw [hlive]; simp)]
    have hwoff : o * s.wordSize / s.wordSize = o := by
      rw [Nat.mul_comm, Nat.mul_div_cancel_left _ hI.wordPos]
    rw [hwoff]
    have hrm := removeFirst_insertOrdered ⟨o, (b + s.wordSize - 1) / s.wordSize⟩
      s.allocatedList
    simp only at hrm
    rw [hrm]
    dsimp only
    rw [if_neg (show ¬(b + s.wordSize - 1) / s.wordSize = 0 by omega)]
    dsimp only
    by_cases hex : L = (b + s.wordSize - 1) / s.wordSize
    · rw [if_pos hex]
      have hins : insertOrdered ⟨o, (b + s.wordSize - 1) / s.wordSize⟩ (pre ++ post)
          = pre ++ ⟨o, (b + s.wordSize - 1) / s.wordSize⟩ :: post := by
        apply insertOrdered_of_decomp
        · intro p hp
          exact hpre p hp
        · intro q hq
          have := hhd q hq
          unfold holeRel at this
          simp only at this ⊢
          omega
      rw [hins, ← hex, ← hdecomp]
      exact mergeHoles_eq_self s.holeList hI.holeChain
    · rw [if_neg hex]
      have hins : insertOrdered ⟨o, (b + s.wordSize - 1) / s.wordSize⟩
          (pre ++ ⟨o + (b + s.wordSize - 1) / s.wordSize,
                   L - (b + s.wordSize - 1) / s.wordSize⟩ :: post)
          = pre ++ ⟨o, (b + s.wordSize - 1) / s.wordSize⟩
              :: ⟨o + (b + s.wordSize - 1) / s.wordSize,
                  L - (b + s.wordSize - 1) / s.wordSize⟩ :: post := by
        apply insertOrdered_of_decomp
        · intro p hp
          exact hpre p hp
        · intro q hq
          cases hq
          simp only
          omega
      rw [hins]
      have happ := mergeHoles_append pre ⟨o, (b + s.wordSize - 1) / s.wordSize⟩
        (⟨o + (b + s.wordSize - 1) / s.wordSize, L - (b + s.wordSize - 1) / s.wordSize⟩ :: post)
        ?_
      · rw [happ]
        rw [mergeHoles]
        rw [if_pos (by simp only)]
        have hsum : (b + s.wordSize - 1) / s.wordSize
            + (L - (b + s.wordSize - 1) / s.wordSize) = L := by omega
        simp only [hsum]
        rw [mergeHoles_eq_self (⟨o, L⟩ :: post) hcrest, ← hdecomp]
      · refine List.chain'_append.mpr ⟨hcpre, List.chain'_singleton _, ?_⟩
        intro x hx y hy
        cases hy
        have := hlink x hx ⟨o, L⟩ rfl
        unfold holeRel at *
        simp only at this ⊢
        omega

theorem claim_C8_roundtrip_witness :
    Reachable mm1 ∧ SoundStrategy bestFit ∧
    MemoryManager.allocate mm1 bestFit 4 = (mm2, some 0) ∧
    (MemoryManager.free mm2 (some 0)).holeList = mm1.holeList :=
  ⟨reach_mm1, bestFit_sound, by decide,
   claim_C8_roundtrip mm1 bestFit 4 mm2 0 reach_mm1 bestFit_sound (by decide)⟩

/-- C10: `free` matches allocations by the truncated word offset
`(address − base) / wordSize`.  Any address inside the first word of a live
allocation (also one strictly inside, not the address `allocate` returned)
frees the entire allocation: the block is removed from the allocation ledger
and its full extent returns to the (coalesced, still non-adjacent) hole
ledger.  An address whose quotient matches no allocation leaves the state
completely unchanged. -/
theorem claim_C10_free_resolution (s : MMState) (hr : Reachable s)
    (hlive : s.live = true) :
    (∀ blk ∈ s.allocatedList, ∀ r < s.wordSize,
      (MemoryManager.free s (some (blk.offset * s.wordSize + r))).allocatedList
          = s.allocatedList.erase blk
      ∧ (∀ i, extCount i (MemoryManager.free s (some (blk.offset * s.wordSize + r))).holeList
          = extCount i s.holeList
            + (if blk.offset ≤ i ∧ i < blk.offset + blk.length then 1 else 0))
      ∧ (∀ h₁ ∈ (MemoryManager.free s (some (blk.offset * s.wordSize + r))).holeList,
          ∀ h₂ ∈ (MemoryManager.free s (some (blk.offset * s.wordSize + r))).holeList,
            h₁.offset < h₂.offset → h₁.offset + h₁.length < h₂.offset))
    ∧ (∀ a : Nat, (∀ blk ∈ s.allocatedList, blk.offset ≠ a / s.wordSize) →
        MemoryManager.free s (some a) = s) := by
  have hI := reachable_inv hr
  constructor
  · intro blk hblk r hrw
    have hwoff : (blk.offset * s.wordSize + r) / s.wordSize = blk.offset := by
      rw [Nat.mul_comm, Nat.mul_add_div hI.wordPos, Nat.div_eq_of_lt hrw]
      omega
    obtain ⟨pre, post, hdec⟩ := List.append_of_mem hblk
    have hpair := pairwise_offset_lt_of_chain_block hI.blockChain hI.blockPos
    rw [hdec] at hpair
    have hpre : ∀ p ∈ pre, p.offset ≠ blk.offset := by
      intro p hp
      have := (List.pairwise_append.mp hpair).2.2 p hp blk (List.mem_cons_self _ _)
      omega
    have hrm : removeFirstByOffset blk.offset (pre ++ blk :: post)
        = some (blk.length, pre ++ post) := removeFirst_of_decomp blk pre post hpre
    have hblkpos : 0 < blk.length := hI.blockPos blk hblk
    have hfree_eq : MemoryManager.free s (some (blk.offset * s.wordSize + r))
        = { s with allocatedList := pre ++ post,
                   holeList := mergeHoles
                     (insertOrdered ⟨blk.offset, blk.length⟩ s.holeList) } := by
      simp only [MemoryManager.free]
      rw [if_neg (show ¬s.live = false by rw [hlive]; simp)]
      rw [hwoff, hdec, hrm]
      dsimp only
      rw [if_neg (show ¬blk.length = 0 by omega)]
    have hmergeChain := mergeHoles_chain (insertOrdered ⟨blk.offset, blk.length⟩ s.holeList)
      (chain'_insertOrdered _ _ (hI.holeChain.imp fun _ _ hab => holeRel_blockRel hab)
        (by
          intro e he
          have := free_disjoint hI hblk e he
          simpa using this)
        hI.holePos)
      (by
        intro e he
        rcases mem_insertOrdered.mp he with rfl | h
        · simpa using hblkpos
        · exact hI.holePos e h)
    refine ⟨?_, ?_, ?_⟩
    · rw [hfree_eq]
      dsimp only
      have hnotpre : blk ∉ pre := fun hmem => (hpre blk hmem) rfl
      rw [hdec, List.erase_append_right _ (by simpa using hnotpre), List.erase_cons_head]
    · intro i
      rw [hfree_eq]
      dsimp only
      rw [extCount_mergeHoles, extCount_insertOrdered]
      dsimp only
      omega
    · rw [hfree_eq]
      dsimp only
      have hp' : List.Pairwise (fun x y : Extent => holeRel x y ∨ holeRel y x)
          (mergeHoles (insertOrdered ⟨blk.offset, blk.length⟩ s.holeList)) :=
        (chain'_pairwise_hole hmergeChain.1).imp fun hab => Or.inl hab
      intro h₁ hm₁ h₂ hm₂ hlt
      have hne : h₁ ≠ h₂ := by
        intro he
        rw [he] at hlt
        exact absurd hlt (lt_irrefl _)
      rcases hp'.forall (fun x y hxy => hxy.symm) hm₁ hm₂ hne with hrel | hrel
      · exact hrel
      · unfold holeRel at hrel
        omega
  · intro a hnone
    have hrm : removeFirstByOffset (a / s.wordSize) s.allocatedList = none :=
      removeFirst_none _ _ hnone
    simp only [MemoryManager.free]
    rw [if_neg (show ¬s.live = false by rw [hlive]; simp), hrm]

theorem claim_C10_free_resolution_witness :
    Reachable mm3 ∧ mm3.live = true ∧ (⟨0, 1⟩ : Extent) ∈ mm3.allocatedList ∧ 1 < mm3.wordSize ∧
    (MemoryManager.free mm3 (some ((⟨0, 1⟩ : Extent).offset * mm3.wordSize + 1))).allocatedList
      = mm3.allocatedList.erase ⟨0, 1⟩ ∧
    MemoryManager.free mm3 (some 30) = mm3 :=
  ⟨reach_mm3, by decide, by decide, by decide,
   ((claim_C10_free_resolution mm3 reach_mm3 (by decide)).1 ⟨0, 1⟩ (by decide) 1
     (by decide)).1,
   (claim_C10_free_resolution mm3 reach_mm3 (by decide)).2 30 (by decide)⟩
